import Mathlib

/-!
The llts batch parsing harness (`main.go`).

A shallow embedding of the harness: the extension helper `file.ext`, the
per-file runner `parseJS` / `file.tryParse`, the aggregation loop `parse`, and
the loader `preloadAll` with the callback it hands to `filepath.Walk`.

Conventions of the embedding.

* A Go `string` is a sequence of bytes (`GoString`); comparison of strings is
  the lexicographic order of their bytes, as in Go.
* Standard output is the list of the texts written by the `fmt.Print*` calls,
  one element per call, without the final newline.
* The external parser (`llts/js`) is a parameter: a function from the number
  of earlier invocations, the lexer's source text and the dialect to what
  `p.Parse` does.  The invocation index lets the parser behave differently
  on every call.
* A panic is the `Except.error` branch of the function that raises it, and
  carries the value that `recover()` returns: `none` for `nil` (a `panic(nil)`
  before Go 1.21), `some` of its text otherwise; the deferred function of
  `tryParse` is the match that consumes it.
* The file tree handed to `filepath.Walk` is a value of `FsNode`; the
  functions of Go's standard library that the harness calls (`filepath.Ext`,
  `strings.HasPrefix`, `strings.TrimPrefix`, `utf8.Valid`, `sort.Strings`,
  `filepath.Walk`) are modelled from their documented behaviour on Unix, and
  `filepath.Join` is a parameter.
-/

namespace Llts

/-! ## Strings -/

/-- One byte of a Go string. -/
abbrev Byte := Fin 256

/-- A Go `string`: an immutable sequence of bytes. -/
abbrev GoString := List Byte

/-- The bytes of an ASCII literal of the source. -/
def lit (s : String) : GoString := s.toList.map (fun c => Fin.ofNat c.toNat)

/-- The byte `'.'`. -/
def dot : Byte := 46

/-- The byte `'/'`, the path separator (`os.IsPathSeparator` on Unix). -/
def sep : Byte := 47

/-- Go's `strings.HasPrefix(s, p)`: `len(s) >= len(p) && s[:len(p)] == p`. -/
def HasPrefix (s p : GoString) : Bool :=
  decide (p.length ≤ s.length) && (s.take p.length == p)

/-- Go's `strings.TrimPrefix(s, p)`: `s[len(p):]` when `s` starts with `p`, else `s`. -/
def TrimPrefix (s p : GoString) : GoString :=
  if HasPrefix s p then s.drop p.length else s

/-- The loop of `filepath.Ext`: `n` is `i + 1` for the loop index `i`, which runs
down from `len(path) - 1` while `path[i]` is not a separator and returns
`path[i:]` at the first `'.'`. -/
def Ext.loop (path : GoString) : Nat → GoString
  | 0 => []
  | i + 1 =>
    if path.getD i 0 = sep then []
    else if path.getD i 0 = dot then path.drop i
    else Ext.loop path i

/-- Go's `filepath.Ext(path)`. -/
def Ext (path : GoString) : GoString := Ext.loop path path.length

/-- The decimal digits of a natural number. -/
def fmtNat (n : Nat) : GoString := (Nat.toDigits 10 n).map (fun c => Fin.ofNat c.toNat)

/-- The verb `%v` applied to an `int`. -/
def fmtInt (i : Int) : GoString :=
  if i < 0 then lit "-" ++ fmtNat i.natAbs else fmtNat i.natAbs

/-- The verb `%10v`: the text right-aligned in a field of width ten. -/
def pad10 (s : GoString) : GoString := List.replicate (10 - s.length) 32 ++ s

/-- The text of the run-time error raised by a failing `s[lo:hi]` on a string of
length `len` (Go's `runtime.boundsError`): the upper bound is checked first. -/
def boundsErrorText (lo hi : Int) (len : Nat) : GoString :=
  if hi < 0 then
    lit "runtime error: slice bounds out of range [:" ++ fmtInt hi ++ lit "]"
  else if (len : Int) < hi then
    lit "runtime error: slice bounds out of range [:" ++ fmtInt hi ++ lit "] with length "
      ++ fmtNat len
  else if lo < 0 then
    lit "runtime error: slice bounds out of range [" ++ fmtInt lo ++ lit ":]"
  else
    lit "runtime error: slice bounds out of range [" ++ fmtInt lo ++ lit ":" ++ fmtInt hi
      ++ lit "]"

/-- Go's `s[lo:hi]` on a string: the bytes `lo .. hi-1`, and a run-time panic
(the `error` branch, carrying the panic's text) unless `0 ≤ lo ≤ hi ≤ len(s)`. -/
def slice (s : GoString) (lo hi : Int) : Except GoString GoString :=
  if 0 ≤ lo ∧ lo ≤ hi ∧ hi ≤ (s.length : Int) then
    .ok ((s.drop lo.toNat).take (hi.toNat - lo.toNat))
  else .error (boundsErrorText lo hi s.length)

/-- Go's `sort.Strings`: the strings in increasing order. -/
def sortStrings (a : List GoString) : List GoString := List.insertionSort (· ≤ ·) a

/-! ## Files and extensions -/

/-- The map `supportedExts`: `true` for `ts` and `tsx`, the zero value `false`
for every other key. -/
def supportedExts (ext : GoString) : Bool :=
  ext == lit "ts" || ext == lit "tsx"

/-- The struct `file`. -/
structure file where
  path : GoString
  content : GoString
deriving DecidableEq, Repr

/-- The method `file.ext`. -/
def file.ext (f : file) : GoString :=
  let ext := Ext f.path
  if HasPrefix ext (lit ".") then ext.drop 1 else ext

/-- The extension as `preloadAll` computes it: `strings.TrimPrefix(filepath.Ext(path), ".")`. -/
def loaderExt (path : GoString) : GoString := TrimPrefix (Ext path) (lit ".")

/-- The name of a file in the words of the specification: the final element of
the path, the text after its last separator. -/
def lastElement (path : GoString) : GoString :=
  (path.reverse.takeWhile (fun b => b != sep)).reverse

/-- The extension in the words of the specification: the text after the last
`'.'` of the file's name, and the empty string when the name has no `'.'`. -/
def extSpec (path : GoString) : GoString :=
  if dot ∈ lastElement path then
    ((lastElement path).reverse.takeWhile (fun b => b != dot)).reverse
  else []

/-! ## The external parser -/

/-- The dialects of `llts/js` that the harness selects. -/
inductive Dialect where
  | Typescript
  | TypescriptJsx
deriving DecidableEq, Repr

/-- What one call `p.Parse(ctx, l)` of the external parser does: it returns
`nil`, returns a `js.SyntaxError` (with the text of its `Error()` and its fields
`Offset` and `Endoffset`), returns an error of another type (with its text), or
panics, with the value that `recover()` then returns: `none` when that value is
`nil` (a `panic(nil)` before Go 1.21), `some` of its text otherwise. -/
inductive ParseResult where
  | ok
  | syntaxError (desc : GoString) (Offset Endoffset : Int)
  | otherError (desc : GoString)
  | panics (r : Option GoString)
deriving DecidableEq, Repr

/-- The external parser: the behaviour of the invocation number `n` (counting
from zero) on a lexer initialised with a source text and a dialect. -/
abbrev ParseFn := Nat → GoString → Dialect → ParseResult

/-- The observable world of the runner: what was written to standard output,
and the invocations of the parser so far (source text and dialect of the lexer). -/
structure World where
  out : List GoString
  calls : List (GoString × Dialect)
deriving DecidableEq, Repr

/-- The call `fmt.Print*` that writes one line. -/
def World.print (w : World) (line : GoString) : World :=
  { w with out := w.out ++ [line] }

deriving instance DecidableEq for Except

/-! ## The per-file runner -/

/-- The function `parseJS`. A fresh lexer is initialised with `f.content` and the
dialect and the parser is invoked once; the result is the returned string, or
the panic that leaves the function (from the parser, or from the slice
`f.content[err.Offset:err.Endoffset]`, which is evaluated before the
diagnostic line is written). -/
def parseJS (P : ParseFn) (w : World) (f : file) (dialect : Dialect) :
    World × Except (Option GoString) GoString :=
  let w1 : World := { w with calls := w.calls ++ [(f.content, dialect)] }
  match P w.calls.length f.content dialect with
  | .ok => (w1, .ok (lit "ok"))
  | .panics r => (w1, .error r)
  | .otherError desc => (w1.print (f.path ++ lit ": " ++ desc), .ok (lit "parse_err"))
  | .syntaxError desc Offset Endoffset =>
    match slice f.content Offset Endoffset with
    | .error r => (w1, .error (some r))
    | .ok sub =>
      (w1.print (f.path ++ lit ": " ++ desc ++ (lit " on `" ++ sub ++ lit "`")),
        .ok (lit "parse_err"))

/-- The body of `tryParse`, before the deferred function runs. -/
def file.tryParseBody (P : ParseFn) (w : World) (f : file) :
    World × Except (Option GoString) GoString :=
  if f.ext = lit "ts" then parseJS P w f .Typescript
  else if f.ext = lit "tsx" then parseJS P w f .TypescriptJsx
  else (w, .ok (lit "no_parser"))

/-- The method `file.tryParse`. The deferred function calls `recover()`, which ends
a panic of the body; when the recovered value `r` is not `nil` it writes
`<path>: recovered: <r>`; after a panic the function returns the zero value of
its unnamed result, the empty string. -/
def file.tryParse (P : ParseFn) (w : World) (f : file) : World × GoString :=
  match f.tryParseBody P w with
  | (w1, .ok outcome) => (w1, outcome)
  | (w1, .error (some r)) => (w1.print (f.path ++ lit ": recovered: " ++ r), [])
  | (w1, .error none) => (w1, [])

/-! ## Aggregation -/

/-- The map `results` of `parse`: keys with their counts, each key once. -/
abbrev Table := List (GoString × Nat)

/-- The read `results[k]`: zero for an absent key. -/
def Table.get (m : Table) (k : GoString) : Nat := (m.lookup k).getD 0

/-- The statement `results[k]++`. -/
def Table.incr : Table → GoString → Table
  | [], k => [(k, 1)]
  | (k', n) :: m, k => if k' = k then (k', n + 1) :: m else (k', n) :: Table.incr m k

/-- The keys of the map, in one order of iteration. -/
def Table.keys (m : Table) : List GoString := m.map Prod.fst

/-- The key under which `parse` counts a file: `outcome+" ("+f.ext()+")"`. -/
def resultKey (outcome : GoString) (f : file) : GoString :=
  outcome ++ lit " (" ++ f.ext ++ lit ")"

/-- One loop `for _, f := range files` of `parse`: every file is attempted and
its key is counted. -/
def pass (P : ParseFn) : World → Table → List file → World × Table
  | w, m, [] => (w, m)
  | w, m, f :: fs =>
    pass P (f.tryParse P w).1 (m.incr (resultKey (f.tryParse P w).2 f)) fs

/-- The rows of the report: the sorted keys, each with its count. -/
def reportRows (results : Table) : List (Nat × GoString) :=
  (sortStrings results.keys).map (fun k => (results.get k, k))

/-- One row as `fmt.Printf("%10v %v\n", results[k], k)` writes it. -/
def printRow (r : Nat × GoString) : GoString :=
  pad10 (fmtInt r.1) ++ lit " " ++ r.2

/-- The function `parse`: the first loop, the blank line and the report, and the
second loop over the same files. -/
def parse (P : ParseFn) (w : World) (files : List file) : World × Table :=
  let r1 := pass P w [] files
  let w2 : World :=
    { r1.1 with out := r1.1.out ++ [[]] ++ (reportRows r1.2).map printRow }
  pass P w2 r1.2 files

/-- The outcomes of one loop over the files, in order. -/
def outcomes (P : ParseFn) : World → List file → List GoString
  | _, [] => []
  | w, f :: fs => (f.tryParse P w).2 :: outcomes P (f.tryParse P w).1 fs

/-- The keys counted by one loop over the files, in order. -/
def passKeys (P : ParseFn) : World → List file → List GoString
  | _, [] => []
  | w, f :: fs => resultKey (f.tryParse P w).2 f :: passKeys P (f.tryParse P w).1 fs

/-- The lexer input of the one parser invocation that a file causes, if any. -/
def parserInput (f : file) : Option (GoString × Dialect) :=
  if f.ext = lit "ts" then some (f.content, .Typescript)
  else if f.ext = lit "tsx" then some (f.content, .TypescriptJsx)
  else none

/-- An outcome that stands for a per-file problem: a parse error or an
internal fault. -/
def isProblem (outcome : GoString) : Bool :=
  outcome == lit "parse_err" || outcome == []

/-- Whether the parser panics with a `nil` value in the attempt on `f` in `w`. -/
def nilPanic (P : ParseFn) (w : World) (f : file) : Bool :=
  match parserInput f with
  | some (src, d) => P w.calls.length src d == .panics none
  | none => false

/-- Whether the attempt on `f` in `w` ends in a problem that is reported: its
outcome is a parse error or an internal fault, and the fault is not a panic
with a `nil` value. -/
def reported (P : ParseFn) (w : World) (f : file) : Bool :=
  isProblem (f.tryParse P w).2 && !nilPanic P w f

/-- For each file of one loop, in order, whether its attempt is reported. -/
def reports (P : ParseFn) : World → List file → List Bool
  | _, [] => []
  | w, f :: fs => reported P w f :: reports P (f.tryParse P w).1 fs

/-- The outcome of every file of the list is a function of the file: it is the
same whatever was written and parsed before the attempt. -/
def OutcomeByFile (P : ParseFn) (files : List file) : Prop :=
  ∀ f ∈ files, ∀ w w' : World, (f.tryParse P w).2 = (f.tryParse P w').2

/-- A parser whose behaviour does not depend on the invocation number. -/
def Deterministic (P : ParseFn) : Prop :=
  ∀ (i j : Nat) (src : GoString) (d : Dialect), P i src d = P j src d

/-- The outcome of a file under a parser, taken at the first invocation. -/
def outcomeOf (P : ParseFn) (f : file) : GoString := (f.tryParse P ⟨[], []⟩).2

/-- The key of a file under a parser, taken at the first invocation. -/
def keyOf (P : ParseFn) (f : file) : GoString := resultKey (outcomeOf P f) f

/-! ## The loader -/

/-- The acceptor behind `utf8.Valid`: `pending` continuation bytes are still
owed, and the next one must lie in `lo .. hi` (later ones in `0x80 .. 0xBF`). -/
def Valid.go : Nat → Byte → Byte → GoString → Bool
  | 0, _, _, [] => true
  | _ + 1, _, _, [] => false
  | 0, _, _, b :: rest =>
    if b < 0x80 then Valid.go 0 0x80 0xBF rest
    else if 0xC2 ≤ b ∧ b ≤ 0xDF then Valid.go 1 0x80 0xBF rest
    else if b = 0xE0 then Valid.go 2 0xA0 0xBF rest
    else if b = 0xED then Valid.go 2 0x80 0x9F rest
    else if 0xE1 ≤ b ∧ b ≤ 0xEF then Valid.go 2 0x80 0xBF rest
    else if b = 0xF0 then Valid.go 3 0x90 0xBF rest
    else if 0xF1 ≤ b ∧ b ≤ 0xF3 then Valid.go 3 0x80 0xBF rest
    else if b = 0xF4 then Valid.go 3 0x80 0x8F rest
    else false
  | n + 1, lo, hi, b :: rest =>
    if lo ≤ b ∧ b ≤ hi then Valid.go n 0x80 0xBF rest else false

/-- Go's `utf8.Valid`: the bytes are a sequence of well-formed UTF-8 encodings. -/
def Valid (data : GoString) : Bool := Valid.go 0 0x80 0xBF data

/-- What `info.Mode()` tells the callback about an entry, together with what
`ioutil.ReadFile` returns for a regular file (its bytes or an error). -/
inductive Kind where
  | regular (read : Except GoString GoString)
  | dir
  | irregular
deriving DecidableEq

/-- One invocation of the walk callback: with `err != nil` (`failed`), or with
the `os.FileInfo` of the entry (`found`: its `Name()` and its mode). -/
inductive Entry where
  | failed (path : GoString) (err : GoString)
  | found (path : GoString) (name : GoString) (kind : Kind)
deriving DecidableEq

/-- The value returned by a walk callback: `nil`, `filepath.SkipDir`, or an error. -/
inductive Signal where
  | nil
  | SkipDir
  | err (e : GoString)
deriving DecidableEq

/-- A file tree as `filepath.Walk` sees it through `os.Lstat`: a regular file with
the result of reading it, an entry that is neither regular nor a directory
(symbolic link, device, pipe, socket), a directory with the error of listing
it (if any) and its entries in the order of their names, or an entry whose
`Lstat` fails. -/
inductive FsNode where
  | regular (name : GoString) (read : Except GoString GoString)
  | irregular (name : GoString)
  | dir (name : GoString) (listErr : Option GoString) (children : List FsNode)
  | broken (name : GoString) (err : GoString)

/-- The name of an entry. -/
def FsNode.name : FsNode → GoString
  | .regular n _ => n
  | .irregular n => n
  | .dir n _ _ => n
  | .broken n _ => n

/-- The error of `os.Lstat` on an entry, if any. -/
def FsNode.lstatErr : FsNode → Option GoString
  | .broken _ e => some e
  | _ => none

/-- The test `fileInfo.IsDir()`. -/
def FsNode.isDir : FsNode → Bool
  | .dir _ _ _ => true
  | _ => false

mutual
/-- Go's `filepath.walk`, threading the state `σ` of the callback: a
non-directory is handed to the callback; a directory is listed, handed to the
callback, and left at once when listing failed or the callback returned
anything but `nil`; otherwise its entries are walked in order. -/
def walk {σ : Type} (join : GoString → GoString → GoString) (fn : σ → Entry → σ × Signal)
    (path : GoString) : FsNode → σ → σ × Signal
  | .regular name read, s => fn s (.found path name (.regular read))
  | .irregular name, s => fn s (.found path name .irregular)
  | .broken _ e, s => fn s (.failed path e)
  | .dir name listErr children, s =>
    match listErr with
    | some e => fn s (.failed path e)
    | none =>
      if (fn s (.found path name .dir)).2 ≠ .nil then fn s (.found path name .dir)
      else walkNames join fn path children (fn s (.found path name .dir)).1
/-- The loop of `filepath.walk` over the names of a directory: an error of the
callback on an entry whose `Lstat` failed ends the walk unless it is `SkipDir`;
a result of walking an entry ends the walk of this directory unless it is
`nil`, or `SkipDir` from a directory. -/
def walkNames {σ : Type} (join : GoString → GoString → GoString)
    (fn : σ → Entry → σ × Signal) (path : GoString) : List FsNode → σ → σ × Signal
  | [], s => (s, .nil)
  | c :: cs, s =>
    match c.lstatErr with
    | some e =>
      if (fn s (.failed (join path c.name) e)).2 ≠ .nil
          ∧ (fn s (.failed (join path c.name) e)).2 ≠ .SkipDir then
        fn s (.failed (join path c.name) e)
      else walkNames join fn path cs (fn s (.failed (join path c.name) e)).1
    | none =>
      if (walk join fn (join path c.name) c s).2 ≠ .nil
          ∧ (c.isDir = false ∨ (walk join fn (join path c.name) c s).2 ≠ .SkipDir) then
        walk join fn (join path c.name) c s
      else walkNames join fn path cs (walk join fn (join path c.name) c s).1
end

/-- Go's `filepath.Walk(root, fn)`: `SkipDir` from the walk of the root is not an error. -/
def Walk {σ : Type} (join : GoString → GoString → GoString) (fn : σ → Entry → σ × Signal)
    (root : GoString) (t : FsNode) (s : σ) : σ × Signal :=
  if (walk join fn root t s).2 = .SkipDir then ((walk join fn root t s).1, .nil)
  else walk join fn root t s

/-- The variables the callback of `preloadAll` closes over, and standard output. -/
structure LoadState where
  ret : List file
  out : List GoString
deriving DecidableEq

/-- The callback that `preloadAll` hands to `filepath.Walk`. -/
def walkFn (s : LoadState) : Entry → LoadState × Signal
  | .failed _ e => (s, .err e)
  | .found path name kind =>
    match kind with
    | .regular read =>
      if supportedExts (TrimPrefix (Ext path) (lit ".")) = false then (s, .nil)
      else
        match read with
        | .error e => (s, .err e)
        | .ok data =>
          if Valid data = false then
            ({ s with out := s.out ++ [lit "skipping a non-utf8 file: " ++ path] }, .nil)
          else ({ s with ret := s.ret ++ [⟨path, data⟩] }, .nil)
    | _ =>
      if name = lit ".git" then ({ s with out := s.out ++ [lit "skipping .git"] }, .SkipDir)
      else (s, .nil)

/-- The function `preloadAll`: the returned files or the error, and standard output. -/
def preloadAll (join : GoString → GoString → GoString) (root : GoString) (t : FsNode) :
    Except GoString (List file) × List GoString :=
  match Walk join walkFn root t ⟨[], []⟩ with
  | (s, .err e) => (.error e, s.out)
  | (s, _) => (.ok s.ret, s.out)

/-- A callback that also records the entries it is invoked on. -/
def traced {σ : Type} (fn : σ → Entry → σ × Signal) (s : σ × List Entry) (e : Entry) :
    (σ × List Entry) × Signal :=
  (((fn s.1 e).1, s.2 ++ [e]), (fn s.1 e).2)

/-- The entries on which the callback of `preloadAll` is invoked, in order. -/
def visited (join : GoString → GoString → GoString) (root : GoString) (t : FsNode) :
    List Entry :=
  (Walk join (traced walkFn) root t (⟨[], []⟩, [])).1.2

/-- The file that an entry adds to the result: a regular file with a supported
extension whose bytes are read and are valid UTF-8. -/
def loaded : Entry → Option file
  | .found path _ (.regular (.ok data)) =>
    if supportedExts (loaderExt path) && Valid data then some ⟨path, data⟩ else none
  | _ => none

/-- A regular file with a supported extension whose bytes are not valid UTF-8. -/
def badText : Entry → Bool
  | .found path _ (.regular (.ok data)) => supportedExts (loaderExt path) && !Valid data
  | _ => false

/-- The path of an entry. -/
def Entry.path : Entry → GoString
  | .failed p _ => p
  | .found p _ _ => p

/-- The join of a directory path that is clean, not `.` and not the root `/`,
with a name: on such arguments `filepath.Join` inserts one separator. -/
def joinPlain (dir name : GoString) : GoString := dir ++ lit "/" ++ name

mutual
/-- The files the specification expects from a tree: the regular files with a
supported extension and valid text that do not lie beneath a directory named
`.git`, in the order of the walk. -/
def expectedFiles (join : GoString → GoString → GoString) (path : GoString) :
    FsNode → List file
  | .regular _ (.ok data) =>
    if supportedExts (loaderExt path) && Valid data then [⟨path, data⟩] else []
  | .regular _ (.error _) => []
  | .irregular _ => []
  | .broken _ _ => []
  | .dir name _ children =>
    if name = lit ".git" then [] else expectedFilesList join path children
/-- The expected files of the entries of a directory. -/
def expectedFilesList (join : GoString → GoString → GoString) (path : GoString) :
    List FsNode → List file
  | [] => []
  | c :: cs => expectedFiles join (join path c.name) c ++ expectedFilesList join path cs
end

/-! ## Concrete inputs -/

/-- A parser used in the examples: its behaviour is chosen by the source text. -/
def sampleParser : ParseFn := fun _ src _ =>
  if src = lit "let x = 1" then .ok
  else if src = lit "let = " then .syntaxError (lit "syntax error") 4 5
  else if src = lit "boom" then
    .panics (some (lit "runtime error: index out of range [3] with length 3"))
  else if src = lit "nil" then .panics none
  else if src = lit "far" then .syntaxError (lit "syntax error") 0 5
  else .otherError (lit "context canceled")

/-- The world before anything is written or parsed. -/
def World.empty : World := ⟨[], []⟩

/-- A file `a.ts` on which the example parser succeeds. -/
def fileOk : file := ⟨lit "a.ts", lit "let x = 1"⟩

/-- A file `b.tsx` on which the example parser returns a syntax error at bytes 4..5. -/
def fileErr : file := ⟨lit "b.tsx", lit "let = "⟩

/-- A file `c.ts` on which the example parser panics. -/
def filePanic : file := ⟨lit "c.ts", lit "boom"⟩

/-- A file `e.ts` on which the example parser panics with the value `nil`. -/
def fileNil : file := ⟨lit "e.ts", lit "nil"⟩

/-- A parser whose outcome is a function of the file although its behaviour is
not: the text of its error changes with the invocation. -/
def flakyParser : ParseFn := fun n src _ =>
  if src = lit "let x = 1" then .ok else .otherError (fmtNat n)

/-- A file `d.ts` of three bytes on which the example parser returns a syntax
error with `Offset = 0` and `Endoffset = 5`. -/
def fileFar : file := ⟨lit "d.ts", lit "far"⟩

/-- A file whose extension is `TS` in capitals. -/
def fileUpper : file := ⟨lit "A.TS", lit "let x = 1"⟩

/-- A file `c.txt`. -/
def fileTxt : file := ⟨lit "c.txt", lit "let x = 1"⟩

/-- The line that the callback of `preloadAll` writes for an entry, if any. -/
def notice : Entry → Option GoString
  | .failed _ _ => none
  | .found path name kind =>
    match kind with
    | .regular (.ok data) =>
      if supportedExts (loaderExt path) && !Valid data then
        some (lit "skipping a non-utf8 file: " ++ path)
      else none
    | .regular (.error _) => none
    | _ => if name = lit ".git" then some (lit "skipping .git") else none

/-- A tree with a regular `a.ts`, a `b.tsx` whose bytes are not valid UTF-8, a
`c.txt`, a `d.tsx` and a directory `.git` that holds a `h.ts`. -/
def sampleTree : FsNode :=
  .dir (lit "proj") none
    [.dir (lit ".git") none [.regular (lit "h.ts") (.ok (lit "let x = 1"))],
     .regular (lit "a.ts") (.ok (lit "let x = 1")),
     .regular (lit "b.tsx") (.ok [0xff]),
     .regular (lit "c.txt") (.ok (lit "let x = 1")),
     .regular (lit "d.tsx") (.ok (lit "let = "))]

/-- A tree whose root holds a symbolic link named `.git` and a regular `a.ts`. -/
def gitLinkTree : FsNode :=
  .dir (lit "proj") none
    [.irregular (lit ".git"), .regular (lit "a.ts") (.ok (lit "let x = 1"))]

mutual
/-- A tree on which the walk meets no error and no entry named `.git` that is
neither a regular file nor a directory; what lies beneath a directory named
`.git` is not constrained. -/
def readable : FsNode → Bool
  | .regular _ (.ok _) => true
  | .regular _ (.error _) => false
  | .irregular name => !(name == lit ".git")
  | .broken _ _ => false
  | .dir name listErr children =>
    listErr.isNone && (name == lit ".git" || readableList children)
/-- Every entry of a directory is readable. -/
def readableList : List FsNode → Bool
  | [] => true
  | c :: cs => readable c && readableList cs
end

mutual
/-- The number of pruned directories: those named `.git` that do not lie beneath
another one. -/
def prunedDirs : FsNode → Nat
  | .dir name _ children => if name = lit ".git" then 1 else prunedDirsList children
  | _ => 0
/-- The pruned directories among the entries of a directory. -/
def prunedDirsList : List FsNode → Nat
  | [] => 0
  | c :: cs => prunedDirs c + prunedDirsList cs
end

/-- The files of the report example: `a.ts` twice, `b.tsx` and `c.txt`. -/
def sampleFiles : List file := [fileOk, fileErr, fileOk, fileTxt]


/-! ## Extensions -/

theorem Ext.loop_append (q s : GoString) :
    ∀ n, n ≤ q.length →
      Ext.loop (q ++ s) n = if Ext.loop q n = [] then [] else Ext.loop q n ++ s := by
  intro n
  induction n with
  | zero => intro _; simp [Ext.loop]
  | succ i ih =>
    intro hi
    have hlt : i < q.length := hi
    have hget : (q ++ s).getD i 0 = q.getD i 0 := by
      simp [List.getD, List.getElem?_append_left hlt]
    simp only [Ext.loop, hget]
    generalize q.getD i 0 = x
    by_cases h1 : x = sep
    · simp [h1]
    · by_cases h2 : x = dot
      · have hne : q.drop i ≠ [] := by
          simp [List.drop_eq_nil_iff]; exact hlt
        have hds : dot ≠ sep := by decide
        subst h2
        simp [hds, hne, List.drop_append_of_le_length (Nat.le_of_lt hlt)]
      · simp [h1, h2, ih (Nat.le_of_lt hlt)]

theorem Ext_snoc (q : GoString) (c : Byte) :
    Ext (q ++ [c]) =
      if c = sep then [] else if c = dot then [dot]
      else if Ext q = [] then [] else Ext q ++ [c] := by
  have hget : (q ++ [c]).getD q.length 0 = c := by
    simp [List.getD]
  unfold Ext
  rw [List.length_append, List.length_singleton, Ext.loop, hget]
  by_cases h1 : c = sep
  · simp [h1]
  · by_cases h2 : c = dot
    · simp [h2, h1, show dot ≠ sep by decide]
    · simp [h1, h2, Ext.loop_append q [c] q.length (Nat.le_refl _)]

theorem lastElement_snoc (q : GoString) (c : Byte) :
    lastElement (q ++ [c]) = if c = sep then [] else lastElement q ++ [c] := by
  unfold lastElement
  by_cases h : c = sep
  · simp [h, List.takeWhile]
  · simp [h, List.takeWhile]

theorem extSpec_snoc (q : GoString) (c : Byte) (h1 : c ≠ sep) (h2 : c ≠ dot)
    (hd : dot ∈ lastElement q) : extSpec (q ++ [c]) = extSpec q ++ [c] := by
  simp [extSpec, lastElement_snoc, h1, hd, List.takeWhile, h2]

theorem Ext_eq (p : GoString) :
    Ext p = if dot ∈ lastElement p then dot :: extSpec p else [] := by
  induction p using List.reverseRecOn with
  | nil => simp [Ext, Ext.loop, lastElement]
  | append_singleton q c ih =>
    rw [Ext_snoc]
    by_cases h1 : c = sep
    · simp [h1, lastElement_snoc]
    · by_cases h2 : c = dot
      · subst h2
        simp [h1, lastElement_snoc, extSpec, List.takeWhile]
      · by_cases hd : dot ∈ lastElement q
        · have hne : Ext q ≠ [] := by rw [ih]; simp [hd]
          rw [extSpec_snoc q c h1 h2 hd]
          simp [h1, h2, hne, lastElement_snoc, hd, ih]
        · have he : Ext q = [] := by rw [ih]; simp [hd]
          have h2' : ¬ dot = c := fun h => h2 h.symm
          simp [h1, h2, he, lastElement_snoc, hd, h2']

theorem lit_dot : lit "." = [dot] := by decide

theorem file_ext_eq_extSpec (f : file) : f.ext = extSpec f.path := by
  unfold file.ext
  simp only [Ext_eq, lit_dot]
  by_cases hd : dot ∈ lastElement f.path
  · simp [hd, HasPrefix]
  · simp [hd, HasPrefix, extSpec]

theorem loaderExt_eq_extSpec (p : GoString) : loaderExt p = extSpec p := by
  unfold loaderExt TrimPrefix
  simp only [Ext_eq, lit_dot]
  by_cases hd : dot ∈ lastElement p
  · simp [hd, HasPrefix]
  · simp [hd, HasPrefix, extSpec]

theorem extSpec_suffix_lastElement (p : GoString) : extSpec p <:+ lastElement p := by
  unfold extSpec
  split
  · rw [← List.reverse_prefix]
    simpa using List.takeWhile_prefix _
  · exact List.nil_suffix

theorem lastElement_suffix (p : GoString) : lastElement p <:+ p := by
  unfold lastElement
  rw [← List.reverse_prefix]
  simpa using List.takeWhile_prefix _

theorem sep_not_mem_lastElement (p : GoString) : sep ∉ lastElement p := by
  unfold lastElement
  intro h
  have := List.mem_takeWhile_imp (List.mem_reverse.mp h)
  simp at this

theorem dot_not_mem_extSpec (p : GoString) : dot ∉ extSpec p := by
  unfold extSpec
  split
  · intro h
    have := List.mem_takeWhile_imp (List.mem_reverse.mp h)
    simp at this
  · simp

/-- C10: the extension computed by `file.ext` and the one computed by the loader are
the same string, namely the text after the last `'.'` of the final path element
(empty when that element has no `'.'`); it is an unchanged suffix of the path
and contains neither a `'.'` nor a path separator. -/
theorem ext_agrees_with_loader_and_spec (f : file) :
    f.ext = loaderExt f.path ∧ f.ext = extSpec f.path ∧ f.ext <:+ f.path
      ∧ dot ∉ f.ext ∧ sep ∉ f.ext := by
  have h := file_ext_eq_extSpec f
  refine ⟨by rw [h, loaderExt_eq_extSpec], h, ?_, ?_, ?_⟩
  · rw [h]; exact (extSpec_suffix_lastElement _).trans (lastElement_suffix _)
  · rw [h]; exact dot_not_mem_extSpec _
  · rw [h]; intro hs
    exact sep_not_mem_lastElement _ ((extSpec_suffix_lastElement f.path).subset hs)

/-! ## The per-file runner -/

theorem tsx_ne_ts : lit "tsx" ≠ lit "ts" := by decide

theorem tryParse_other_extension (P : ParseFn) (w : World) (f : file)
    (h1 : f.ext ≠ lit "ts") (h2 : f.ext ≠ lit "tsx") :
    f.tryParse P w = (w, lit "no_parser") := by
  simp [file.tryParse, file.tryParseBody, h1, h2]

theorem tryParseBody_of_input (P : ParseFn) (w : World) (f : file) (d : Dialect)
    (h : parserInput f = some (f.content, d)) :
    f.tryParseBody P w = parseJS P w f d := by
  unfold parserInput at h
  unfold file.tryParseBody
  by_cases h1 : f.ext = lit "ts"
  · simp [h1] at h ⊢; rw [← h]
  · by_cases h2 : f.ext = lit "tsx"
    · simp [h1, h2, tsx_ne_ts] at h ⊢; rw [← h]
    · simp [h1, h2] at h

theorem parserInput_content (f : file) (c : GoString) (d : Dialect)
    (h : parserInput f = some (c, d)) : c = f.content := by
  unfold parserInput at h
  split at h
  · simp at h; exact h.1.symm
  · split at h
    · simp at h; exact h.1.symm
    · simp at h

theorem parserInput_none (f : file) :
    parserInput f = none ↔ (f.ext ≠ lit "ts" ∧ f.ext ≠ lit "tsx") := by
  unfold parserInput
  by_cases h1 : f.ext = lit "ts"
  · simp [h1]
  · by_cases h2 : f.ext = lit "tsx"
    · simp [h2, tsx_ne_ts]
    · simp [h1, h2]

/-- What one attempt does, by the behaviour of the parser at this invocation. -/
theorem tryParse_of_input (P : ParseFn) (w : World) (f : file) (d : Dialect)
    (h : parserInput f = some (f.content, d)) :
    f.tryParse P w =
      match P w.calls.length f.content d with
      | .ok => (⟨w.out, w.calls ++ [(f.content, d)]⟩, lit "ok")
      | .panics (some detail) =>
        (⟨w.out ++ [f.path ++ lit ": recovered: " ++ detail], w.calls ++ [(f.content, d)]⟩, [])
      | .panics none => (⟨w.out, w.calls ++ [(f.content, d)]⟩, [])
      | .otherError desc =>
        (⟨w.out ++ [f.path ++ lit ": " ++ desc], w.calls ++ [(f.content, d)]⟩, lit "parse_err")
      | .syntaxError desc lo hi =>
        if 0 ≤ lo ∧ lo ≤ hi ∧ hi ≤ (f.content.length : Int) then
          (⟨w.out ++ [f.path ++ lit ": " ++ desc
              ++ (lit " on `" ++ (f.content.drop lo.toNat).take (hi.toNat - lo.toNat) ++ lit "`")],
            w.calls ++ [(f.content, d)]⟩, lit "parse_err")
        else
          (⟨w.out ++ [f.path ++ lit ": recovered: " ++ boundsErrorText lo hi f.content.length],
            w.calls ++ [(f.content, d)]⟩, []) := by
  unfold file.tryParse
  rw [tryParseBody_of_input P w f d h]
  unfold parseJS
  cases hP : P w.calls.length f.content d with
  | ok => simp
  | panics r => cases r <;> simp [World.print]
  | otherError desc => simp [World.print]
  | syntaxError desc lo hi =>
    simp only [slice]
    by_cases hv : 0 ≤ lo ∧ lo ≤ hi ∧ hi ≤ (f.content.length : Int)
    · simp [hv, World.print]
    · simp [hv, World.print]

theorem tryParse_calls (P : ParseFn) (w : World) (f : file) :
    (f.tryParse P w).1.calls = w.calls ++ (parserInput f).toList := by
  cases hi : parserInput f with
  | none =>
    rw [parserInput_none] at hi
    simp [tryParse_other_extension P w f hi.1 hi.2]
  | some cd =>
    obtain ⟨c, d⟩ := cd
    have hc := parserInput_content f c d hi
    subst hc
    rw [tryParse_of_input P w f d hi]
    cases P w.calls.length f.content d with
    | ok => simp
    | panics r => cases r <;> simp
    | otherError desc => simp
    | syntaxError desc lo hi =>
      by_cases hv : 0 ≤ lo ∧ lo ≤ hi ∧ hi ≤ (f.content.length : Int)
      · simp [hv]
      · simp [hv]

/-- The outcome of an attempt is one of the four strings. -/
theorem tryParse_outcome (P : ParseFn) (w : World) (f : file) :
    (parserInput f = none ∧ (f.tryParse P w).2 = lit "no_parser")
      ∨ (parserInput f ≠ none ∧ ((f.tryParse P w).2 = lit "ok"
          ∨ (f.tryParse P w).2 = lit "parse_err" ∨ (f.tryParse P w).2 = [])) := by
  cases hi : parserInput f with
  | none =>
    rw [parserInput_none] at hi
    simp [tryParse_other_extension P w f hi.1 hi.2]
  | some cd =>
    obtain ⟨c, d⟩ := cd
    have hc := parserInput_content f c d hi
    subst hc
    rw [tryParse_of_input P w f d hi]
    right
    cases P w.calls.length f.content d with
    | ok => simp
    | panics r => cases r <;> simp
    | otherError desc => simp
    | syntaxError desc lo hi =>
      by_cases hv : 0 ≤ lo ∧ lo ≤ hi ∧ hi ≤ (f.content.length : Int)
      · simp [hv]
      · simp [hv]

theorem nilPanic_of_input (P : ParseFn) (w : World) (f : file) (d : Dialect)
    (h : parserInput f = some (f.content, d)) :
    nilPanic P w f = (P w.calls.length f.content d == .panics none) := by
  simp [nilPanic, h]

/-- The lines of one attempt: one line that starts with the path and `": "` when the
attempt is reported, and none otherwise. -/
theorem tryParse_out (P : ParseFn) (w : World) (f : file) :
    ∃ rest : GoString, (f.tryParse P w).1.out =
      w.out ++ (if reported P w f then [f.path ++ lit ": " ++ rest] else []) := by
  unfold reported
  cases hi : parserInput f with
  | none =>
    have hnp : nilPanic P w f = false := by simp [nilPanic, hi]
    rw [parserInput_none] at hi
    refine ⟨[], ?_⟩
    rw [tryParse_other_extension P w f hi.1 hi.2]
    have : isProblem (lit "no_parser") = false := by decide
    simp [this]
  | some cd =>
    obtain ⟨c, d⟩ := cd
    have hc := parserInput_content f c d hi
    subst hc
    rw [nilPanic_of_input P w f d hi, tryParse_of_input P w f d hi]
    have hok : isProblem (lit "ok") = false := by decide
    have herr : isProblem (lit "parse_err") = true := by decide
    have hnil : isProblem [] = true := by decide
    have hrec : lit ": recovered: " = lit ": " ++ lit "recovered: " := by decide
    cases P w.calls.length f.content d with
    | ok => exact ⟨[], by simp [hok]⟩
    | panics r =>
      cases r with
      | none => exact ⟨[], by simp⟩
      | some detail => exact ⟨lit "recovered: " ++ detail, by simp [hnil, hrec]⟩
    | otherError desc => exact ⟨desc, by simp [herr]⟩
    | syntaxError desc lo hi =>
      by_cases hv : 0 ≤ lo ∧ lo ≤ hi ∧ hi ≤ (f.content.length : Int)
      · exact ⟨desc ++ (lit " on `"
          ++ (f.content.drop lo.toNat).take (hi.toNat - lo.toNat) ++ lit "`"), by simp [hv, herr]⟩
      · exact ⟨lit "recovered: " ++ boundsErrorText lo hi f.content.length,
          by simp [hv, hnil, hrec]⟩

/-- C2 (as stated, refuted): the parser panics with the value `nil` on `e.ts`;
`tryParse` returns the empty string, but `recover()` returns `nil` and the
deferred function writes nothing, so the attempt does not write one line. -/
theorem tryParse_nil_panic_writes_nothing :
    sampleParser 0 fileNil.content .Typescript = .panics none
      ∧ (fileNil.tryParse sampleParser World.empty).2 = []
      ∧ (fileNil.tryParse sampleParser World.empty).1.out = []
      ∧ ¬ (fileNil.tryParse sampleParser World.empty).1.out.length = 1 := by
  decide

/-- C2 (amended): for a file with extension `ts` or `tsx` whose parser invocation
panics, `tryParse` returns normally with the empty string, which differs from
`ok`, `parse_err` and `no_parser`; when the recovered value is not `nil` the
attempt writes exactly the one line `<path>: recovered: <fault detail>`, and
when it is `nil` the attempt writes nothing. -/
theorem tryParse_recovers_parser_panic (P : ParseFn) (w : World) (f : file) (d : Dialect)
    (r : Option GoString)
    (hext : (f.ext = lit "ts" ∧ d = .Typescript) ∨ (f.ext = lit "tsx" ∧ d = .TypescriptJsx))
    (hpanic : P w.calls.length f.content d = .panics r) :
    (f.tryParse P w).2 = []
      ∧ (f.tryParse P w).2 ≠ lit "ok" ∧ (f.tryParse P w).2 ≠ lit "parse_err"
      ∧ (f.tryParse P w).2 ≠ lit "no_parser"
      ∧ (f.tryParse P w).1.out = w.out ++
          (r.map (fun detail => f.path ++ lit ": recovered: " ++ detail)).toList := by
  have hin : parserInput f = some (f.content, d) := by
    unfold parserInput
    rcases hext with ⟨h, hd⟩ | ⟨h, hd⟩
    · simp [h, hd]
    · simp [h, hd, tsx_ne_ts]
  have h1 : ([] : GoString) ≠ lit "ok" := by decide
  have h2 : ([] : GoString) ≠ lit "parse_err" := by decide
  have h3 : ([] : GoString) ≠ lit "no_parser" := by decide
  have hrun : f.tryParse P w = (⟨w.out ++
      (r.map (fun detail => f.path ++ lit ": recovered: " ++ detail)).toList,
      w.calls ++ [(f.content, d)]⟩, []) := by
    unfold file.tryParse
    rw [tryParseBody_of_input P w f d hin]
    unfold parseJS
    rw [hpanic]
    cases r <;> simp [World.print]
  rw [hrun]
  exact ⟨rfl, h1, h2, h3, rfl⟩

theorem tryParse_recovers_parser_panic_witness :
    ((filePanic.tryParse sampleParser World.empty).2 = []
      ∧ (filePanic.tryParse sampleParser World.empty).2 ≠ lit "ok"
      ∧ (filePanic.tryParse sampleParser World.empty).2 ≠ lit "parse_err"
      ∧ (filePanic.tryParse sampleParser World.empty).2 ≠ lit "no_parser"
      ∧ (filePanic.tryParse sampleParser World.empty).1.out = World.empty.out ++
          [filePanic.path ++ lit ": recovered: "
            ++ lit "runtime error: index out of range [3] with length 3"])
    ∧ ((fileNil.tryParse sampleParser World.empty).2 = []
      ∧ (fileNil.tryParse sampleParser World.empty).2 ≠ lit "ok"
      ∧ (fileNil.tryParse sampleParser World.empty).2 ≠ lit "parse_err"
      ∧ (fileNil.tryParse sampleParser World.empty).2 ≠ lit "no_parser"
      ∧ (fileNil.tryParse sampleParser World.empty).1.out = World.empty.out ++ []) :=
  ⟨tryParse_recovers_parser_panic sampleParser World.empty filePanic .Typescript
      (some (lit "runtime error: index out of range [3] with length 3"))
      (Or.inl ⟨by decide, rfl⟩) (by decide),
   tryParse_recovers_parser_panic sampleParser World.empty fileNil .Typescript none
      (Or.inl ⟨by decide, rfl⟩) (by decide)⟩

/-- C3 (as stated, refuted): on `d.ts`, three bytes long, with a syntax error
whose range is 0..5, the slice of the content panics before the diagnostic
line is written; `tryParse` returns the empty string, not `parse_err`, and the
only line written is the `recovered:` line, which does not start with
`d.ts: syntax error`. -/
theorem tryParse_syntaxError_range_past_end :
    sampleParser 0 fileFar.content .Typescript = .syntaxError (lit "syntax error") 0 5
      ∧ (fileFar.tryParse sampleParser World.empty).2 = []
      ∧ (fileFar.tryParse sampleParser World.empty).2 ≠ lit "parse_err"
      ∧ (fileFar.tryParse sampleParser World.empty).1.out
          = [lit "d.ts: recovered: runtime error: slice bounds out of range [:5] with length 3"]
      ∧ ¬ HasPrefix
          ((fileFar.tryParse sampleParser World.empty).1.out.getD 0 [])
          (lit "d.ts: syntax error") := by
  decide

/-- C3 (amended): for a file with extension `ts` or `tsx` and a syntax error returned
by the parser, when the range is valid (`0 ≤ Offset ≤ Endoffset ≤ len(content)`)
the outcome is `parse_err` and the one line written is `<path>: <description>`
followed by the offending substring between backticks; when the range is not
valid the slice faults, the outcome is the empty string of an internal fault
and the one line written is `<path>: recovered: <text of the run-time error>`. -/
theorem tryParse_syntaxError_by_range (P : ParseFn) (w : World) (f : file) (d : Dialect)
    (desc : GoString) (lo hi : Int)
    (hext : (f.ext = lit "ts" ∧ d = .Typescript) ∨ (f.ext = lit "tsx" ∧ d = .TypescriptJsx))
    (herr : P w.calls.length f.content d = .syntaxError desc lo hi) :
    ((0 ≤ lo ∧ lo ≤ hi ∧ hi ≤ (f.content.length : Int)) →
        (f.tryParse P w).2 = lit "parse_err"
          ∧ (f.tryParse P w).1.out = w.out ++ [f.path ++ lit ": " ++ desc
              ++ (lit " on `" ++ (f.content.drop lo.toNat).take (hi.toNat - lo.toNat)
                ++ lit "`")])
      ∧ (¬ (0 ≤ lo ∧ lo ≤ hi ∧ hi ≤ (f.content.length : Int)) →
        (f.tryParse P w).2 = []
          ∧ (f.tryParse P w).1.out = w.out
              ++ [f.path ++ lit ": recovered: " ++ boundsErrorText lo hi f.content.length]) := by
  have hin : parserInput f = some (f.content, d) := by
    unfold parserInput
    rcases hext with ⟨h, hd⟩ | ⟨h, hd⟩
    · simp [h, hd]
    · simp [h, hd, tsx_ne_ts]
  rw [tryParse_of_input P w f d hin, herr]
  constructor
  · intro hv; simp [hv]
  · intro hv; simp [hv]

theorem tryParse_syntaxError_by_range_witness :
    ((fileErr.tryParse sampleParser World.empty).2 = lit "parse_err"
        ∧ (fileErr.tryParse sampleParser World.empty).1.out = World.empty.out
            ++ [fileErr.path ++ lit ": " ++ lit "syntax error"
              ++ (lit " on `" ++ (fileErr.content.drop (4 : Int).toNat).take
                ((5 : Int).toNat - (4 : Int).toNat) ++ lit "`")])
      ∧ ((fileFar.tryParse sampleParser World.empty).2 = []
        ∧ (fileFar.tryParse sampleParser World.empty).1.out = World.empty.out
            ++ [fileFar.path ++ lit ": recovered: "
              ++ boundsErrorText 0 5 fileFar.content.length]) :=
  ⟨(tryParse_syntaxError_by_range sampleParser World.empty fileErr .TypescriptJsx
      (lit "syntax error") 4 5 (Or.inr ⟨by decide, rfl⟩) (by decide)).1 (by decide),
   (tryParse_syntaxError_by_range sampleParser World.empty fileFar .Typescript
      (lit "syntax error") 0 5 (Or.inl ⟨by decide, rfl⟩) (by decide)).2 (by decide)⟩

/-- C9: `tryParse` selects the dialect from the extension alone: with extension
`ts` the attempt adds exactly one parser invocation, on the file's content with
dialect `Typescript`; with `tsx` exactly one with dialect `TypescriptJsx`; with
any other extension it returns `no_parser` and leaves the output and the list
of parser invocations unchanged. -/
theorem tryParse_selects_dialect_from_extension (P : ParseFn) (w : World) (f : file) :
    (f.ext = lit "ts" → (f.tryParse P w).1.calls = w.calls ++ [(f.content, .Typescript)])
      ∧ (f.ext = lit "tsx"
          → (f.tryParse P w).1.calls = w.calls ++ [(f.content, .TypescriptJsx)])
      ∧ (f.ext ≠ lit "ts" → f.ext ≠ lit "tsx" → f.tryParse P w = (w, lit "no_parser")) := by
  refine ⟨?_, ?_, tryParse_other_extension P w f⟩
  · intro h
    rw [tryParse_calls]
    simp [parserInput, h]
  · intro h
    rw [tryParse_calls]
    simp [parserInput, h, tsx_ne_ts]

theorem tryParse_selects_dialect_from_extension_witness :
    (fileOk.tryParse sampleParser World.empty).1.calls
        = World.empty.calls ++ [(fileOk.content, .Typescript)]
      ∧ (fileErr.tryParse sampleParser World.empty).1.calls
        = World.empty.calls ++ [(fileErr.content, .TypescriptJsx)]
      ∧ fileUpper.tryParse sampleParser World.empty = (World.empty, lit "no_parser") :=
  ⟨(tryParse_selects_dialect_from_extension sampleParser World.empty fileOk).1 (by decide),
   (tryParse_selects_dialect_from_extension sampleParser World.empty fileErr).2.1 (by decide),
   (tryParse_selects_dialect_from_extension sampleParser World.empty fileUpper).2.2
     (by decide) (by decide)⟩

/-! ## The table of counts -/

theorem Table.get_incr (m : Table) (k k' : GoString) :
    (m.incr k).get k' = m.get k' + (if k = k' then 1 else 0) := by
  induction m with
  | nil =>
    by_cases h : k = k'
    · subst h; simp [Table.incr, Table.get, List.lookup]
    · have hb : (k' == k) = false := by simpa using fun e => h e.symm
      simp [Table.incr, Table.get, List.lookup, h, hb]
  | cons p m ih =>
    obtain ⟨a, n⟩ := p
    unfold Table.get at ih ⊢
    by_cases ha : a = k
    · subst ha
      by_cases h : a = k'
      · subst h; simp [Table.incr, List.lookup]
      · have hb : (k' == a) = false := by simpa using fun e => h e.symm
        simp [Table.incr, List.lookup, h, hb]
    · by_cases h : k' = a
      · subst h
        have hk : ¬ k = k' := fun e => ha e.symm
        simp [Table.incr, List.lookup, ha, hk]
      · have hb : (k' == a) = false := by simpa using h
        simp [Table.incr, List.lookup, ha, hb, ih]

theorem Table.keys_incr (m : Table) (k : GoString) :
    (m.incr k).keys = if k ∈ m.keys then m.keys else m.keys ++ [k] := by
  induction m with
  | nil => simp [Table.incr, Table.keys]
  | cons p m ih =>
    obtain ⟨a, n⟩ := p
    unfold Table.keys at ih ⊢
    by_cases ha : a = k
    · subst ha; simp [Table.incr]
    · have ha' : ¬ k = a := fun e => ha e.symm
      simp only [Table.incr, ha, if_false, List.map_cons, ih, List.mem_cons, ha', false_or]
      split <;> simp

theorem Table.nodup_incr (m : Table) (k : GoString) (h : m.keys.Nodup) :
    (m.incr k).keys.Nodup := by
  rw [Table.keys_incr]
  split
  · exact h
  · rename_i hk
    exact List.Nodup.append h (List.nodup_singleton k) (by simpa using hk)

theorem Table.mem_keys_incr (m : Table) (k k' : GoString) :
    k' ∈ (m.incr k).keys ↔ k' ∈ m.keys ∨ k' = k := by
  rw [Table.keys_incr]
  split
  · rename_i hk
    constructor
    · exact Or.inl
    · rintro (h | h)
      · exact h
      · subst h; exact hk
  · simp

theorem Table.foldl_incr (ks : List GoString) :
    ∀ m : Table, m.keys.Nodup →
      (ks.foldl Table.incr m).keys.Nodup
        ∧ (∀ k, k ∈ (ks.foldl Table.incr m).keys ↔ k ∈ m.keys ∨ k ∈ ks)
        ∧ (∀ k, (ks.foldl Table.incr m).get k = m.get k + ks.count k) := by
  induction ks with
  | nil => intro m h; simp [h]
  | cons a ks ih =>
    intro m h
    obtain ⟨h1, h2, h3⟩ := ih (m.incr a) (Table.nodup_incr m a h)
    refine ⟨h1, ?_, ?_⟩
    · intro k
      rw [List.foldl_cons, h2, Table.mem_keys_incr, List.mem_cons]
      tauto
    · intro k
      rw [List.foldl_cons, h3, Table.get_incr, List.count_cons]
      by_cases hk : a = k
      · subst hk; simp; omega
      · simp [hk]

theorem sortStrings_perm {l₁ l₂ : List GoString} (h : l₁.Perm l₂) :
    sortStrings l₁ = sortStrings l₂ := by
  unfold sortStrings
  exact List.eq_of_perm_of_sorted
    (((List.perm_insertionSort _ l₁).trans h).trans (List.perm_insertionSort _ l₂).symm)
    (List.sorted_insertionSort _ l₁) (List.sorted_insertionSort _ l₂)

theorem sortStrings_strict {l : List GoString} (h : l.Nodup) :
    (sortStrings l).Sorted (· < ·) := by
  unfold sortStrings
  exact (List.sorted_insertionSort (· ≤ ·) l).lt_of_le
    ((List.perm_insertionSort _ l).nodup_iff.mpr h)

/-- The table built from nothing by counting the keys `ks`: its keys are the
distinct keys of `ks` and every count is the number of occurrences. -/
theorem Table.of_keys (ks : List GoString) :
    (ks.foldl Table.incr []).keys.Perm ks.dedup
      ∧ ∀ k, (ks.foldl Table.incr []).get k = ks.count k := by
  obtain ⟨h1, h2, h3⟩ := Table.foldl_incr ks [] (by simp [Table.keys])
  constructor
  · apply (List.perm_ext_iff_of_nodup h1 (List.nodup_dedup ks)).mpr
    intro k
    rw [h2, List.mem_dedup]
    simp [Table.keys]
  · intro k
    rw [h3]
    simp [Table.get]

theorem reportRows_of_keys (ks : List GoString) :
    reportRows (ks.foldl Table.incr []) =
      (sortStrings ks.dedup).map (fun k => (ks.count k, k)) := by
  obtain ⟨h1, h2⟩ := Table.of_keys ks
  unfold reportRows
  rw [sortStrings_perm h1]
  apply List.map_congr_left
  intro k _
  rw [h2]

theorem sum_counts_of_keys (ks : List GoString) :
    ((reportRows (ks.foldl Table.incr [])).map Prod.fst).sum = ks.length := by
  rw [reportRows_of_keys, List.map_map]
  have hp : (sortStrings ks.dedup).Perm ks.dedup := by
    unfold sortStrings; exact List.perm_insertionSort _ _
  have hs := (hp.map (fun k => ks.count k)).sum_eq
  simp only [Function.comp_def]
  rw [hs]
  have hc : ∀ k, ks.count k = @List.count GoString instBEqOfDecidableEq k ks := by
    intro k
    simp only [List.count]
    apply List.countP_congr
    intro x _
    simp
  simp only [hc]
  exact List.sum_map_count_dedup_eq_length ks

/-! ## One loop over the files -/

theorem pass_table (P : ParseFn) (fs : List file) :
    ∀ (w : World) (m : Table), (pass P w m fs).2 = (passKeys P w fs).foldl Table.incr m := by
  induction fs with
  | nil => intro w m; rfl
  | cons f fs ih => intro w m; simp [pass, passKeys, ih]

theorem pass_calls (P : ParseFn) (fs : List file) :
    ∀ (w : World) (m : Table),
      (pass P w m fs).1.calls = w.calls ++ fs.filterMap parserInput := by
  induction fs with
  | nil => intro w m; simp [pass]
  | cons f fs ih =>
    intro w m
    simp only [pass, ih, tryParse_calls]
    cases h : parserInput f <;> simp [List.filterMap_cons, h]

theorem passKeys_length (P : ParseFn) (fs : List file) :
    ∀ w : World, (passKeys P w fs).length = fs.length := by
  induction fs with
  | nil => intro w; rfl
  | cons f fs ih => intro w; simp [passKeys, ih]

theorem outcomes_length (P : ParseFn) (fs : List file) :
    ∀ w : World, (outcomes P w fs).length = fs.length := by
  induction fs with
  | nil => intro w; rfl
  | cons f fs ih => intro w; simp [outcomes, ih]

theorem reports_length (P : ParseFn) (fs : List file) :
    ∀ w : World, (reports P w fs).length = fs.length := by
  induction fs with
  | nil => intro w; rfl
  | cons f fs ih => intro w; simp [reports, ih]

/-- The lines of one loop: one per reported attempt, each starting with the path of
a file of the list. -/
theorem pass_out (P : ParseFn) (fs : List file) :
    ∀ (w : World) (m : Table), ∃ ds : List GoString,
      (pass P w m fs).1.out = w.out ++ ds
        ∧ ds.length = (reports P w fs).count true
        ∧ ∀ l ∈ ds, ∃ f ∈ fs, ∃ rest : GoString, l = f.path ++ lit ": " ++ rest := by
  induction fs with
  | nil => intro w m; exact ⟨[], by simp [pass, reports]⟩
  | cons f fs ih =>
    intro w m
    obtain ⟨rest, hrest⟩ := tryParse_out P w f
    obtain ⟨ds, hds, hlen, hmem⟩ :=
      ih (f.tryParse P w).1 (m.incr (resultKey (f.tryParse P w).2 f))
    refine ⟨(if reported P w f then [f.path ++ lit ": " ++ rest] else []) ++ ds, ?_, ?_, ?_⟩
    · simp only [pass, hds, hrest, List.append_assoc]
    · simp only [reports, List.count_cons, List.length_append, hlen]
      cases reported P w f
      · simp
      · simp; omega
    · intro l hl
      rcases List.mem_append.mp hl with h | h
      · cases hr : reported P w f
        · simp [hr] at h
        · simp only [hr, if_true, List.mem_singleton] at h
          exact ⟨f, List.mem_cons_self _ _, rest, h⟩
      · obtain ⟨g, hg, rest', hl'⟩ := hmem l h
        exact ⟨g, List.mem_cons_of_mem _ hg, rest', hl'⟩

theorem passKeys_eq_zipWith (P : ParseFn) (fs : List file) :
    ∀ w : World, passKeys P w fs = List.zipWith resultKey (outcomes P w fs) fs := by
  induction fs with
  | nil => intro w; rfl
  | cons f fs ih => intro w; simp [passKeys, outcomes, ih]

/-- What `parse` writes: the lines of the first loop, a blank line, the rows of the
report, and the lines of the second loop. -/
theorem parse_out (P : ParseFn) (w : World) (files : List file) :
    ∃ ds : List GoString,
      (parse P w files).1.out = (pass P w [] files).1.out ++ [[]]
          ++ (reportRows (pass P w [] files).2).map printRow ++ ds
        ∧ ds.length = (reports P
            { (pass P w [] files).1 with
              out := (pass P w [] files).1.out ++ [[]]
                ++ (reportRows (pass P w [] files).2).map printRow } files).count true
        ∧ ∀ l ∈ ds, ∃ f ∈ files, ∃ rest : GoString, l = f.path ++ lit ": " ++ rest := by
  unfold parse
  exact pass_out P files _ _

theorem tryParse_outcome_det (P : ParseFn) (hdet : Deterministic P) (w : World) (f : file) :
    (f.tryParse P w).2 = outcomeOf P f := by
  unfold outcomeOf
  cases hi : parserInput f with
  | none =>
    rw [parserInput_none] at hi
    simp [tryParse_other_extension P _ f hi.1 hi.2]
  | some cd =>
    obtain ⟨c, d⟩ := cd
    have hc := parserInput_content f c d hi
    subst hc
    rw [tryParse_of_input P w f d hi, tryParse_of_input P ⟨[], []⟩ f d hi,
      hdet w.calls.length (World.calls ⟨[], []⟩).length f.content d]
    cases P (World.calls ⟨[], []⟩).length f.content d with
    | ok => rfl
    | panics r => cases r <;> rfl
    | otherError desc => rfl
    | syntaxError desc lo hi =>
      by_cases hv : 0 ≤ lo ∧ lo ≤ hi ∧ hi ≤ (f.content.length : Int)
      · simp [hv]
      · simp [hv]

theorem outcomeByFile_of_det (P : ParseFn) (hdet : Deterministic P) (files : List file) :
    OutcomeByFile P files := by
  intro f _ w w'
  rw [tryParse_outcome_det P hdet w f, tryParse_outcome_det P hdet w' f]

theorem outcomeByFile_tail (P : ParseFn) (f : file) (fs : List file)
    (h : OutcomeByFile P (f :: fs)) : OutcomeByFile P fs :=
  fun g hg w w' => h g (List.mem_cons_of_mem _ hg) w w'

theorem passKeys_byFile (P : ParseFn) (fs : List file) :
    OutcomeByFile P fs → ∀ w : World, passKeys P w fs = fs.map (keyOf P) := by
  induction fs with
  | nil => intro _ w; rfl
  | cons f fs ih =>
    intro h w
    have hf : (f.tryParse P w).2 = outcomeOf P f := h f (List.mem_cons_self _ _) w ⟨[], []⟩
    simp [passKeys, ih (outcomeByFile_tail P f fs h), keyOf, hf]

theorem reported_det (P : ParseFn) (hdet : Deterministic P) (w : World) (f : file) :
    reported P w f = reported P World.empty f := by
  unfold reported
  rw [tryParse_outcome_det P hdet w f, tryParse_outcome_det P hdet World.empty f]
  congr 2
  unfold nilPanic
  cases parserInput f with
  | none => rfl
  | some cd => simp only [hdet w.calls.length World.empty.calls.length cd.1 cd.2]

theorem reports_det (P : ParseFn) (hdet : Deterministic P) (fs : List file) :
    ∀ w : World, reports P w fs = fs.map (reported P World.empty) := by
  induction fs with
  | nil => intro w; rfl
  | cons f fs ih =>
    intro w
    simp [reports, ih, reported_det P hdet w f]

/-- The whole call of `parse` attempts every file twice: with a parser whose
behaviour does not depend on the invocation, it writes two diagnostic lines for
every file whose problem is reported, besides the blank line and the rows of
the report. -/
theorem parse_out_length_det (P : ParseFn) (hdet : Deterministic P) (w : World)
    (files : List file) :
    (parse P w files).1.out.length =
      w.out.length + 1 + (reportRows (pass P w [] files).2).length
        + 2 * (files.map (reported P World.empty)).count true := by
  obtain ⟨ds, hds, hlen, _⟩ := parse_out P w files
  obtain ⟨ds1, hds1, hlen1, _⟩ := pass_out P files w []
  have h1 : (pass P w [] files).1.out.length = w.out.length + ds1.length := by
    rw [hds1, List.length_append]
  rw [reports_det P hdet] at hlen hlen1
  rw [hds, List.length_append, List.length_append, List.length_append, h1, hlen, hlen1,
    List.length_map, List.length_singleton]
  omega

theorem sampleParser_det : Deterministic sampleParser := fun _ _ _ _ => rfl

/-- The outcome under the parser `flakyParser` is a function of the file. -/
theorem flakyParser_outcomeByFile (files : List file) : OutcomeByFile flakyParser files := by
  intro f _ w w'
  cases hi : parserInput f with
  | none =>
    rw [parserInput_none] at hi
    simp [tryParse_other_extension flakyParser _ f hi.1 hi.2]
  | some cd =>
    obtain ⟨c, d⟩ := cd
    have hc := parserInput_content f c d hi
    subst hc
    rw [tryParse_of_input flakyParser w f d hi, tryParse_of_input flakyParser w' f d hi]
    by_cases hs : f.content = lit "let x = 1"
    · simp [flakyParser, hs]
    · simp [flakyParser, hs]

/-- The behaviour of `flakyParser` depends on the invocation. -/
theorem flakyParser_not_det : ¬ Deterministic flakyParser := by
  intro h
  have := h 0 1 [] .Typescript
  revert this
  decide

theorem printRow_eq (n : Nat) (k : GoString) :
    printRow (n, k) =
      List.replicate (10 - (Nat.toDigits 10 n).length) (32 : Byte)
        ++ (Nat.toDigits 10 n).map (fun c => (Fin.ofNat c.toNat : Byte)) ++ [(32 : Byte)] ++ k := by
  have hsp : lit " " = [(32 : Byte)] := by decide
  have hneg : ¬ ((n : Int) < 0) := by omega
  simp [printRow, pad10, fmtInt, fmtNat, hsp, hneg]

theorem count_map_keyOf (P : ParseFn) (files : List file) (k : GoString) :
    (files.map (keyOf P)).count k = files.countP (fun f => decide (keyOf P f = k)) := by
  rw [List.count, List.countP_map]
  apply List.countP_congr
  intro f _
  simp

/-- C1: the first loop of `parse` records one key per file, whatever the parser
does on each file (no panic leaves an attempt, so the parser is invoked for
every file with a parser, also after a faulting one); the counts of the printed
report are the numbers of recorded keys and their sum is the number of files. -/
theorem first_pass_counts_every_file (P : ParseFn) (w : World) (files : List file) :
    (outcomes P w files).length = files.length
      ∧ passKeys P w files = List.zipWith resultKey (outcomes P w files) files
      ∧ (∀ k, (pass P w [] files).2.get k = (passKeys P w files).count k)
      ∧ (pass P w [] files).1.calls = w.calls ++ files.filterMap parserInput
      ∧ ((reportRows (pass P w [] files).2).map Prod.fst).sum = files.length
      ∧ ∃ ds : List GoString, (parse P w files).1.out =
          (pass P w [] files).1.out ++ [[]]
            ++ (reportRows (pass P w [] files).2).map printRow ++ ds := by
  refine ⟨outcomes_length P files w, passKeys_eq_zipWith P files w, ?_,
    pass_calls P files w [], ?_, ?_⟩
  · intro k
    rw [pass_table]
    exact (Table.of_keys _).2 k
  · rw [pass_table, sum_counts_of_keys, passKeys_length]
  · obtain ⟨ds, hds, _⟩ := parse_out P w files
    exact ⟨ds, hds⟩

/-- C4 (as stated, refuted): one call of `parse` on the single file `b.tsx`, whose
attempt ends in a syntax error, writes two diagnostic lines that name the file,
one before the report and one after it, not one. -/
theorem parse_writes_diagnostic_twice :
    (parse sampleParser World.empty [fileErr]).1.out =
        [lit "b.tsx: syntax error on `=`", [], lit "         1 parse_err (tsx)",
          lit "b.tsx: syntax error on `=`"]
      ∧ ¬ (((parse sampleParser World.empty [fileErr]).1.out.filter
              (fun l => HasPrefix l (lit "b.tsx: "))).length
            = ([fileErr].filter (fun f => isProblem (outcomeOf sampleParser f))).length) := by
  decide

/-- C4 (amended): every attempt writes exactly one line, which starts with the
file's path, when its outcome is a parse error or an internal fault and the
fault is not a panic with a `nil` value, and no line otherwise; the lines
written by the first loop of `parse`, the one that precedes the report, are as
many as the files whose attempt in that loop ended so. -/
theorem first_pass_one_diagnostic_per_problem (P : ParseFn) (w : World) (files : List file) :
    (∀ (f : file) (w' : World), ∃ rest : GoString, (f.tryParse P w').1.out =
        w'.out ++ (if isProblem (f.tryParse P w').2 && !nilPanic P w' f
          then [f.path ++ lit ": " ++ rest] else []))
      ∧ ∃ ds : List GoString, (pass P w [] files).1.out = w.out ++ ds
          ∧ ds.length = (reports P w files).count true
          ∧ ∀ l ∈ ds, ∃ f ∈ files, ∃ rest : GoString, l = f.path ++ lit ": " ++ rest :=
  ⟨fun f w' => tryParse_out P w' f, pass_out P files w []⟩

/-- An example of C4 (amended): `e.ts`, on which the parser panics with `nil`, gets
the outcome of an internal fault and no line; `c.ts`, on which it panics with
a value, gets one line. -/
theorem first_pass_nil_panic_example :
    outcomes sampleParser World.empty [fileNil, filePanic] = [[], []]
      ∧ reports sampleParser World.empty [fileNil, filePanic] = [false, true]
      ∧ (pass sampleParser World.empty [] [fileNil, filePanic]).1.out
          = [lit "c.ts: recovered: runtime error: index out of range [3] with length 3"] := by
  decide

/-- C5: when the outcome of every file of the list is a function of the file, the
rows of the report are the distinct keys `outcome (extension)` of the files in
strictly ascending order of their bytes, each with the number of files that
have the key; the report of a permutation of the files is the same; and what
`parse` writes is the lines of its first loop, a blank line, one line per row
(the count in decimal, right-aligned in a field of ten, a space and the key),
and the lines of its second loop, where the lines of both loops each start
with the path of a file and `": "`. -/
theorem report_sorted_with_counts (P : ParseFn) (w : World) (files : List file)
    (hfun : OutcomeByFile P files) :
    reportRows (pass P w [] files).2 =
        (sortStrings (files.map (keyOf P)).dedup).map
          (fun k => (files.countP (fun f => decide (keyOf P f = k)), k))
      ∧ ((reportRows (pass P w [] files).2).map Prod.snd).Sorted (· < ·)
      ∧ (∀ k, k ∈ (reportRows (pass P w [] files).2).map Prod.snd ↔ ∃ f ∈ files, keyOf P f = k)
      ∧ (∀ (files' : List file) (w' : World), files'.Perm files →
          reportRows (pass P w' [] files').2 = reportRows (pass P w [] files).2)
      ∧ ∃ ds1 ds2 : List GoString, (parse P w files).1.out =
          w.out ++ ds1 ++ [[]]
            ++ (sortStrings (files.map (keyOf P)).dedup).map
              (fun k =>
                List.replicate
                    (10 - (Nat.toDigits 10
                      (files.countP (fun f => decide (keyOf P f = k)))).length) (32 : Byte)
                  ++ (Nat.toDigits 10 (files.countP (fun f => decide (keyOf P f = k)))).map
                    (fun c => (Fin.ofNat c.toNat : Byte))
                  ++ [(32 : Byte)] ++ k)
            ++ ds2
          ∧ ∀ l ∈ ds1 ++ ds2, ∃ f ∈ files, ∃ rest : GoString, l = f.path ++ lit ": " ++ rest := by
  have hrows : ∀ (fs : List file) (v : World), OutcomeByFile P fs →
      reportRows (pass P v [] fs).2 =
        (sortStrings (fs.map (keyOf P)).dedup).map
          (fun k => (fs.countP (fun f => decide (keyOf P f = k)), k)) := by
    intro fs v hfs
    rw [pass_table, passKeys_byFile P fs hfs, reportRows_of_keys]
    apply List.map_congr_left
    intro k _
    rw [count_map_keyOf]
  have hkeys : (reportRows (pass P w [] files).2).map Prod.snd
      = sortStrings (files.map (keyOf P)).dedup := by
    rw [hrows files w hfun, List.map_map]
    simp [Function.comp_def]
  refine ⟨hrows files w hfun, ?_, ?_, ?_, ?_⟩
  rotate_right
  · obtain ⟨ds2, hds2, _, hmem2⟩ := parse_out P w files
    obtain ⟨ds1, hds1, _, hmem1⟩ := pass_out P files w []
    refine ⟨ds1, ds2, ?_, ?_⟩
    · rw [hds2, hds1, hrows files w hfun, List.map_map]
      congr 2
      apply List.map_congr_left
      intro k _
      exact printRow_eq _ k
    · intro l hl
      rcases List.mem_append.mp hl with h | h
      · exact hmem1 l h
      · exact hmem2 l h
  · rw [hkeys]
    exact sortStrings_strict (List.nodup_dedup _)
  · intro k
    rw [hkeys]
    unfold sortStrings
    rw [(List.perm_insertionSort _ _).mem_iff, List.mem_dedup, List.mem_map]
  · intro files' w' hp
    have hfun' : OutcomeByFile P files' := fun f hf => hfun f (hp.mem_iff.mp hf)
    rw [hrows files' w' hfun', hrows files w hfun, sortStrings_perm (hp.map (keyOf P)).dedup]
    apply List.map_congr_left
    intro k _
    rw [hp.countP_eq]

theorem report_sorted_with_counts_witness :
    OutcomeByFile flakyParser sampleFiles
      ∧ (reportRows (pass flakyParser World.empty [] sampleFiles).2 =
        (sortStrings (sampleFiles.map (keyOf flakyParser)).dedup).map
          (fun k => (sampleFiles.countP (fun f => decide (keyOf flakyParser f = k)), k))
      ∧ ((reportRows (pass flakyParser World.empty [] sampleFiles).2).map
          Prod.snd).Sorted (· < ·)
      ∧ (∀ k, k ∈ (reportRows (pass flakyParser World.empty [] sampleFiles).2).map Prod.snd
          ↔ ∃ f ∈ sampleFiles, keyOf flakyParser f = k)
      ∧ (∀ (files' : List file) (w' : World), files'.Perm sampleFiles →
          reportRows (pass flakyParser w' [] files').2
            = reportRows (pass flakyParser World.empty [] sampleFiles).2)
      ∧ ∃ ds1 ds2 : List GoString, (parse flakyParser World.empty sampleFiles).1.out =
          World.empty.out ++ ds1 ++ [[]]
            ++ (sortStrings (sampleFiles.map (keyOf flakyParser)).dedup).map
              (fun k =>
                List.replicate
                    (10 - (Nat.toDigits 10
                      (sampleFiles.countP
                        (fun f => decide (keyOf flakyParser f = k)))).length) (32 : Byte)
                  ++ (Nat.toDigits 10
                      (sampleFiles.countP (fun f => decide (keyOf flakyParser f = k)))).map
                    (fun c => (Fin.ofNat c.toNat : Byte))
                  ++ [(32 : Byte)] ++ k)
            ++ ds2
          ∧ ∀ l ∈ ds1 ++ ds2, ∃ f ∈ sampleFiles, ∃ rest : GoString,
              l = f.path ++ lit ": " ++ rest) :=
  ⟨flakyParser_outcomeByFile sampleFiles,
    report_sorted_with_counts flakyParser World.empty sampleFiles
      (flakyParser_outcomeByFile sampleFiles)⟩

/-- The report of the example: the error text of `flakyParser` differs between the
two loops, the rows do not. -/
theorem report_rows_example :
    reportRows (pass flakyParser World.empty [] sampleFiles).2
        = [(1, lit "no_parser (txt)"), (2, lit "ok (ts)"), (1, lit "parse_err (tsx)")]
      ∧ (parse flakyParser World.empty sampleFiles).1.out
        = [lit "b.tsx: 1", [], lit "         1 no_parser (txt)", lit "         2 ok (ts)",
            lit "         1 parse_err (tsx)", lit "b.tsx: 4"] := by
  decide

/-! ## The walk -/

mutual
theorem walk_traced {σ : Type} (join : GoString → GoString → GoString)
    (fn : σ → Entry → σ × Signal) :
    (t : FsNode) → ∀ (path : GoString) (s : σ) (tr : List Entry), ∃ es : List Entry,
      walk join (traced fn) path t (s, tr)
          = (((walk join fn path t s).1, tr ++ es), (walk join fn path t s).2)
        ∧ (walk join fn path t s).1 = es.foldl (fun s e => (fn s e).1) s
  | .regular name read => fun path s tr =>
    ⟨[.found path name (.regular read)], by simp [walk, traced]⟩
  | .irregular name => fun path s tr =>
    ⟨[.found path name .irregular], by simp [walk, traced]⟩
  | .broken name e => fun path s tr =>
    ⟨[.failed path e], by simp [walk, traced]⟩
  | .dir name (some e) children => fun path s tr =>
    ⟨[.failed path e], by simp [walk, traced]⟩
  | .dir name none children => fun path s tr => by
    by_cases h : (fn s (.found path name .dir)).2 = .nil
    · obtain ⟨es, h1, h2⟩ := walkNames_traced join fn children path
        (fn s (.found path name .dir)).1 (tr ++ [.found path name .dir])
      refine ⟨.found path name .dir :: es, ?_, ?_⟩
      · simp [walk, traced, h, h1]
      · simp [walk, h, h2]
    · exact ⟨[.found path name .dir], by simp [walk, traced, h]⟩
theorem walkNames_traced {σ : Type} (join : GoString → GoString → GoString)
    (fn : σ → Entry → σ × Signal) :
    (cs : List FsNode) → ∀ (path : GoString) (s : σ) (tr : List Entry), ∃ es : List Entry,
      walkNames join (traced fn) path cs (s, tr)
          = (((walkNames join fn path cs s).1, tr ++ es), (walkNames join fn path cs s).2)
        ∧ (walkNames join fn path cs s).1 = es.foldl (fun s e => (fn s e).1) s
  | [] => fun path s tr => ⟨[], by simp [walkNames]⟩
  | c :: cs => fun path s tr => by
    cases hl : c.lstatErr with
    | some e =>
      by_cases h : (fn s (.failed (join path c.name) e)).2 ≠ .nil
          ∧ (fn s (.failed (join path c.name) e)).2 ≠ .SkipDir
      · exact ⟨[.failed (join path c.name) e], by simp [walkNames, hl, traced, h]⟩
      · obtain ⟨es, h1, h2⟩ := walkNames_traced join fn cs path
          (fn s (.failed (join path c.name) e)).1 (tr ++ [.failed (join path c.name) e])
        refine ⟨.failed (join path c.name) e :: es, ?_, ?_⟩
        · simp only [walkNames, hl, traced, h, if_false, h1]
          simp
        · simp only [walkNames, hl, h, if_false, h2]
          simp
    | none =>
      obtain ⟨es0, h01, h02⟩ := walk_traced join fn c (join path c.name) s tr
      by_cases h : (walk join fn (join path c.name) c s).2 ≠ .nil
          ∧ (c.isDir = false ∨ (walk join fn (join path c.name) c s).2 ≠ .SkipDir)
      · refine ⟨es0, ?_, ?_⟩
        · simp only [walkNames, hl, h01]
          rw [if_pos h, if_pos h]
        · simp only [walkNames, hl]
          rw [if_pos h]
          exact h02
      · obtain ⟨es, h1, h2⟩ := walkNames_traced join fn cs path
          (walk join fn (join path c.name) c s).1 (tr ++ es0)
        refine ⟨es0 ++ es, ?_, ?_⟩
        · simp only [walkNames, hl, h01]
          rw [if_neg h, if_neg h, h1, List.append_assoc]
        · simp only [walkNames, hl]
          rw [if_neg h, h2, List.foldl_append, ← h02]
end

theorem Walk_traced {σ : Type} (join : GoString → GoString → GoString)
    (fn : σ → Entry → σ × Signal) (root : GoString) (t : FsNode) (s : σ) (tr : List Entry) :
    ∃ es : List Entry,
      Walk join (traced fn) root t (s, tr)
          = (((Walk join fn root t s).1, tr ++ es), (Walk join fn root t s).2)
        ∧ (Walk join fn root t s).1 = es.foldl (fun s e => (fn s e).1) s := by
  obtain ⟨es, h1, h2⟩ := walk_traced join fn t root s tr
  refine ⟨es, ?_, ?_⟩
  · unfold Walk
    rw [h1]
    by_cases h : (walk join fn root t s).2 = .SkipDir
    · simp [h]
    · simp [h]
  · unfold Walk
    by_cases h : (walk join fn root t s).2 = .SkipDir
    · simp [h, h2]
    · simp [h, h2]

theorem walkFn_step (s : LoadState) (e : Entry) :
    (walkFn s e).1 = ⟨s.ret ++ (loaded e).toList, s.out ++ (notice e).toList⟩ := by
  cases e with
  | failed p err => simp [walkFn, loaded, notice]
  | found path name kind =>
    cases kind with
    | dir =>
      by_cases h : name = lit ".git"
      · simp [walkFn, loaded, notice, h]
      · simp [walkFn, loaded, notice, h]
    | irregular =>
      by_cases h : name = lit ".git"
      · simp [walkFn, loaded, notice, h]
      · simp [walkFn, loaded, notice, h]
    | regular read =>
      cases read with
      | error err =>
        by_cases hs : supportedExts (TrimPrefix (Ext path) (lit ".")) = false
        · simp [walkFn, loaded, notice, hs]
        · simp [walkFn, loaded, notice, hs]
      | ok data =>
        by_cases hs : supportedExts (TrimPrefix (Ext path) (lit ".")) = false
        · simp [walkFn, loaded, notice, loaderExt, hs]
        · by_cases hv : Valid data = false
          · simp [walkFn, loaded, notice, loaderExt, hs, hv]
          · simp [walkFn, loaded, notice, loaderExt, hs, hv]

theorem walkFn_foldl (es : List Entry) :
    ∀ s : LoadState, es.foldl (fun s e => (walkFn s e).1) s
      = ⟨s.ret ++ es.filterMap loaded, s.out ++ es.filterMap notice⟩ := by
  induction es with
  | nil => intro s; simp
  | cons e es ih =>
    intro s
    rw [List.foldl_cons, ih, walkFn_step]
    cases hl : loaded e <;> cases hn : notice e <;> simp [List.filterMap_cons, hl, hn]

/-- The state in which the walk of `preloadAll` ends, by the entries visited. -/
theorem Walk_walkFn_state (join : GoString → GoString → GoString) (root : GoString)
    (t : FsNode) :
    (Walk join walkFn root t ⟨[], []⟩).1
      = ⟨(visited join root t).filterMap loaded, (visited join root t).filterMap notice⟩ := by
  obtain ⟨es, h1, h2⟩ := Walk_traced join walkFn root t ⟨[], []⟩ []
  have hv : visited join root t = es := by
    unfold visited
    rw [h1]
    simp
  rw [hv, h2, walkFn_foldl]
  simp

theorem preloadAll_out (join : GoString → GoString → GoString) (root : GoString)
    (t : FsNode) :
    (preloadAll join root t).2 = (visited join root t).filterMap notice := by
  have h := Walk_walkFn_state join root t
  unfold preloadAll
  cases hw : Walk join walkFn root t ⟨[], []⟩ with
  | mk s sig =>
    rw [hw] at h
    cases sig <;> simp_all

theorem preloadAll_files (join : GoString → GoString → GoString) (root : GoString)
    (t : FsNode) (files : List file) (h : (preloadAll join root t).1 = .ok files) :
    files = (visited join root t).filterMap loaded := by
  have hs := Walk_walkFn_state join root t
  unfold preloadAll at h
  cases hw : Walk join walkFn root t ⟨[], []⟩ with
  | mk s sig =>
    rw [hw] at h hs
    cases sig <;> simp_all

theorem loaded_supported (e : Entry) (f : file) (h : loaded e = some f) :
    supportedExts (loaderExt f.path) = true := by
  cases e with
  | failed p err => simp [loaded] at h
  | found path name kind =>
    cases kind with
    | dir => simp [loaded] at h
    | irregular => simp [loaded] at h
    | regular read =>
      cases read with
      | error err => simp [loaded] at h
      | ok data =>
        simp only [loaded] at h
        split at h
        · rename_i hc
          simp at h
          subst h
          simp at hc
          simpa using hc.1
        · simp at h

theorem supportedExts_iff (e : GoString) :
    supportedExts e = true ↔ (e = lit "ts" ∨ e = lit "tsx") := by
  simp [supportedExts]

theorem nonutf8_line_filter (es : List Entry) :
    (es.filterMap notice).filter (fun l => HasPrefix l (lit "skipping a non-utf8 file: "))
      = (es.filter badText).map (fun e => lit "skipping a non-utf8 file: " ++ e.path) := by
  have hgit : HasPrefix (lit "skipping .git") (lit "skipping a non-utf8 file: ") = false := by
    decide
  have hpre : ∀ p : GoString,
      HasPrefix (lit "skipping a non-utf8 file: " ++ p) (lit "skipping a non-utf8 file: ")
        = true := by
    intro p
    simp [HasPrefix]
  induction es with
  | nil => simp
  | cons e es ih =>
    cases e with
    | failed p err => simpa [notice, badText, List.filterMap_cons] using ih
    | found path name kind =>
      cases kind with
      | dir =>
        by_cases h : name = lit ".git"
        · simpa [notice, badText, List.filterMap_cons, h, hgit] using ih
        · simpa [notice, badText, List.filterMap_cons, h] using ih
      | irregular =>
        by_cases h : name = lit ".git"
        · simpa [notice, badText, List.filterMap_cons, h, hgit] using ih
        · simpa [notice, badText, List.filterMap_cons, h] using ih
      | regular read =>
        cases read with
        | error err => simpa [notice, badText, List.filterMap_cons] using ih
        | ok data =>
          by_cases hc : (supportedExts (loaderExt path) && !Valid data) = true
          · simp only [notice, badText, List.filterMap_cons, hc, if_true, List.filter_cons,
              hpre, List.map_cons, Entry.path, ih]
          · simp only [notice, badText, List.filterMap_cons, hc, List.filter_cons]
            simpa using ih

theorem badText_not_loaded (e : Entry) (h : badText e = true) : loaded e = none := by
  cases e with
  | failed p err => rfl
  | found path name kind =>
    cases kind with
    | dir => rfl
    | irregular => rfl
    | regular read =>
      cases read with
      | error err => rfl
      | ok data =>
        simp only [badText, Bool.and_eq_true, Bool.not_eq_true'] at h
        simp [loaded, h.2]

theorem pass_keys_mem (P : ParseFn) (fs : List file) :
    ∀ (w : World) (m : Table) (k : GoString), k ∈ (pass P w m fs).2.keys →
      k ∈ m.keys ∨ ∃ f ∈ fs, ∃ w' : World, k = resultKey (f.tryParse P w').2 f := by
  induction fs with
  | nil => intro w m k h; exact Or.inl h
  | cons f fs ih =>
    intro w m k h
    rcases ih _ _ k h with h1 | ⟨g, hg, w', hk⟩
    · rcases (Table.mem_keys_incr m _ k).mp h1 with h2 | h2
      · exact Or.inl h2
      · exact Or.inr ⟨f, List.mem_cons_self _ _, w, h2⟩
    · exact Or.inr ⟨g, List.mem_cons_of_mem _ hg, w', hk⟩

theorem tryParse_supported_outcome (P : ParseFn) (w : World) (f : file)
    (h : f.ext = lit "ts" ∨ f.ext = lit "tsx") : (f.tryParse P w).2 ≠ lit "no_parser" := by
  have h1 : lit "ok" ≠ lit "no_parser" := by decide
  have h2 : lit "parse_err" ≠ lit "no_parser" := by decide
  have h3 : ([] : GoString) ≠ lit "no_parser" := by decide
  rcases tryParse_outcome P w f with ⟨hn, _⟩ | ⟨_, ho | ho | ho⟩
  · rw [parserInput_none] at hn
    rcases h with h | h
    · exact absurd h hn.1
    · exact absurd h hn.2
  · rw [ho]; exact h1
  · rw [ho]; exact h2
  · rw [ho]; exact h3

/-- C6 (evaluation at the failing input): the root holds a symbolic link named
`.git` and a regular, valid `a.ts`. The callback answers the link with `SkipDir`,
which ends the walk of the root directory: the notice is written, `a.ts` is
never visited and nothing is loaded, although `a.ts` lies beneath no directory
named `.git`. -/
theorem preloadAll_git_link_drops_sibling :
    preloadAll joinPlain (lit "proj") gitLinkTree = (.ok [], [lit "skipping .git"])
      ∧ visited joinPlain (lit "proj") gitLinkTree
          = [.found (lit "proj") (lit "proj") .dir, .found (lit "proj/.git") (lit ".git") .irregular]
      ∧ expectedFiles joinPlain (lit "proj") gitLinkTree
          = [⟨lit "proj/a.ts", lit "let x = 1"⟩] := by
  decide

/-- C7: when `preloadAll` returns a list, it is the list of the regular files with a
supported extension and valid UTF-8 bytes among the visited entries, in the
order of the visit, each with its path and its bytes; the lines
`skipping a non-utf8 file: <path>` of the output are, in order, one for each
visited regular supported file whose bytes are not valid UTF-8, and such a file
adds nothing to the list. -/
theorem preloadAll_loads_valid_supported_in_order (join : GoString → GoString → GoString)
    (root : GoString) (t : FsNode) (files : List file)
    (h : (preloadAll join root t).1 = .ok files) :
    files = (visited join root t).filterMap loaded
      ∧ (preloadAll join root t).2.filter
            (fun l => HasPrefix l (lit "skipping a non-utf8 file: "))
          = ((visited join root t).filter badText).map
              (fun e => lit "skipping a non-utf8 file: " ++ e.path)
      ∧ ∀ e ∈ visited join root t, badText e = true → loaded e = none := by
  refine ⟨preloadAll_files join root t files h, ?_, fun e _ he => badText_not_loaded e he⟩
  rw [preloadAll_out]
  exact nonutf8_line_filter _

theorem preloadAll_loads_valid_supported_in_order_witness :
    (preloadAll joinPlain (lit "proj") sampleTree).1
        = .ok [⟨lit "proj/a.ts", lit "let x = 1"⟩, ⟨lit "proj/d.tsx", lit "let = "⟩]
      ∧ ([⟨lit "proj/a.ts", lit "let x = 1"⟩, ⟨lit "proj/d.tsx", lit "let = "⟩]
          = (visited joinPlain (lit "proj") sampleTree).filterMap loaded
        ∧ (preloadAll joinPlain (lit "proj") sampleTree).2.filter
              (fun l => HasPrefix l (lit "skipping a non-utf8 file: "))
            = ((visited joinPlain (lit "proj") sampleTree).filter badText).map
                (fun e => lit "skipping a non-utf8 file: " ++ e.path)
        ∧ ∀ e ∈ visited joinPlain (lit "proj") sampleTree, badText e = true → loaded e = none) :=
  ⟨by decide,
    preloadAll_loads_valid_supported_in_order joinPlain (lit "proj") sampleTree
      [⟨lit "proj/a.ts", lit "let x = 1"⟩, ⟨lit "proj/d.tsx", lit "let = "⟩] (by decide)⟩

theorem preloadAll_sample_output :
    (preloadAll joinPlain (lit "proj") sampleTree).2
      = [lit "skipping .git", lit "skipping a non-utf8 file: proj/b.tsx"] := by
  decide

/-- C8: every file returned by `preloadAll` has extension `ts` or `tsx`; for such a
file `tryParse` never returns `no_parser`; and every key of the table that
`parse` builds from the returned files, after the first loop and at the end,
is `outcome (extension)` of a returned file with an outcome other than
`no_parser` and extension `ts` or `tsx`. -/
theorem loaded_files_are_supported (join : GoString → GoString → GoString)
    (root : GoString) (t : FsNode) (files : List file)
    (h : (preloadAll join root t).1 = .ok files) :
    (∀ f ∈ files, f.ext = lit "ts" ∨ f.ext = lit "tsx")
      ∧ (∀ f ∈ files, ∀ (P : ParseFn) (w : World), (f.tryParse P w).2 ≠ lit "no_parser")
      ∧ ∀ (P : ParseFn) (w : World) (k : GoString),
          (k ∈ (pass P w [] files).2.keys ∨ k ∈ (parse P w files).2.keys) →
          ∃ f ∈ files, ∃ outcome : GoString, k = outcome ++ lit " (" ++ f.ext ++ lit ")"
            ∧ outcome ≠ lit "no_parser" ∧ (f.ext = lit "ts" ∨ f.ext = lit "tsx") := by
  have hext : ∀ f ∈ files, f.ext = lit "ts" ∨ f.ext = lit "tsx" := by
    intro f hf
    rw [preloadAll_files join root t files h, List.mem_filterMap] at hf
    obtain ⟨e, _, he⟩ := hf
    have hs := loaded_supported e f he
    rw [supportedExts_iff, loaderExt_eq_extSpec, ← file_ext_eq_extSpec] at hs
    exact hs
  refine ⟨hext, fun f hf P w => tryParse_supported_outcome P w f (hext f hf), ?_⟩
  intro P w k hk
  have hfirst : ∀ k, k ∈ (pass P w [] files).2.keys →
      ∃ f ∈ files, ∃ w' : World, k = resultKey (f.tryParse P w').2 f := by
    intro k hk
    rcases pass_keys_mem P files w [] k hk with h0 | h0
    · simp [Table.keys] at h0
    · exact h0
  have hall : ∃ f ∈ files, ∃ w' : World, k = resultKey (f.tryParse P w').2 f := by
    rcases hk with hk | hk
    · exact hfirst k hk
    · unfold parse at hk
      rcases pass_keys_mem P files _ _ k hk with h0 | h0
      · exact hfirst k h0
      · exact h0
  obtain ⟨f, hf, w', hkey⟩ := hall
  exact ⟨f, hf, (f.tryParse P w').2, hkey, tryParse_supported_outcome P w' f (hext f hf), hext f hf⟩

theorem loaded_files_are_supported_witness :
    (preloadAll joinPlain (lit "proj") sampleTree).1
        = .ok [⟨lit "proj/a.ts", lit "let x = 1"⟩, ⟨lit "proj/d.tsx", lit "let = "⟩]
      ∧ ((∀ f ∈ [(⟨lit "proj/a.ts", lit "let x = 1"⟩ : file), ⟨lit "proj/d.tsx", lit "let = "⟩],
            f.ext = lit "ts" ∨ f.ext = lit "tsx")
        ∧ (∀ f ∈ [(⟨lit "proj/a.ts", lit "let x = 1"⟩ : file), ⟨lit "proj/d.tsx", lit "let = "⟩],
            ∀ (P : ParseFn) (w : World), (f.tryParse P w).2 ≠ lit "no_parser")
        ∧ ∀ (P : ParseFn) (w : World) (k : GoString),
            (k ∈ (pass P w []
                  [⟨lit "proj/a.ts", lit "let x = 1"⟩, ⟨lit "proj/d.tsx", lit "let = "⟩]).2.keys
              ∨ k ∈ (parse P w
                  [⟨lit "proj/a.ts", lit "let x = 1"⟩, ⟨lit "proj/d.tsx", lit "let = "⟩]).2.keys) →
            ∃ f ∈ [(⟨lit "proj/a.ts", lit "let x = 1"⟩ : file), ⟨lit "proj/d.tsx", lit "let = "⟩],
              ∃ outcome : GoString, k = outcome ++ lit " (" ++ f.ext ++ lit ")"
                ∧ outcome ≠ lit "no_parser" ∧ (f.ext = lit "ts" ∨ f.ext = lit "tsx")) :=
  ⟨by decide,
    loaded_files_are_supported joinPlain (lit "proj") sampleTree
      [⟨lit "proj/a.ts", lit "let x = 1"⟩, ⟨lit "proj/d.tsx", lit "let = "⟩] (by decide)⟩

theorem loaded_files_report_example :
    reportRows (pass sampleParser World.empty []
        [⟨lit "proj/a.ts", lit "let x = 1"⟩, ⟨lit "proj/d.tsx", lit "let = "⟩]).2
      = [(1, lit "ok (ts)"), (1, lit "parse_err (tsx)")] := by
  decide

/-! ## The loader on trees without an irregular `.git` -/

theorem nonutf8_line_ne_git (p : GoString) :
    lit "skipping a non-utf8 file: " ++ p ≠ lit "skipping .git" := by
  intro h
  have h1 : HasPrefix (lit "skipping a non-utf8 file: " ++ p)
      (lit "skipping a non-utf8 file: ") = true := by
    simp [HasPrefix]
  have h2 : HasPrefix (lit "skipping .git") (lit "skipping a non-utf8 file: ") = false := by
    decide
  rw [h, h2] at h1
  exact Bool.noConfusion h1

theorem walkFn_regular (s : LoadState) (path name data : GoString) :
    ∃ ds : List GoString,
      walkFn s (.found path name (.regular (.ok data)))
          = (⟨s.ret ++ (if supportedExts (loaderExt path) && Valid data then [⟨path, data⟩]
              else []), s.out ++ ds⟩, .nil)
        ∧ ds.count (lit "skipping .git") = 0 := by
  by_cases hs : supportedExts (TrimPrefix (Ext path) (lit ".")) = false
  · exact ⟨[], by simp [walkFn, loaderExt, hs]⟩
  · by_cases hv : Valid data = false
    · refine ⟨[lit "skipping a non-utf8 file: " ++ path], by simp [walkFn, loaderExt, hs, hv], ?_⟩
      rw [List.count_singleton]
      have hne := nonutf8_line_ne_git path
      simp [hne]
    · exact ⟨[], by simp [walkFn, loaderExt, hs, hv]⟩

mutual
theorem walk_readable (join : GoString → GoString → GoString) :
    (t : FsNode) → ∀ (path : GoString) (s : LoadState), readable t = true →
      ∃ ds : List GoString,
        (walk join walkFn path t s).1 = ⟨s.ret ++ expectedFiles join path t, s.out ++ ds⟩
          ∧ ds.count (lit "skipping .git") = prunedDirs t
          ∧ ((walk join walkFn path t s).2 = .nil
              ∨ (t.isDir = true ∧ (walk join walkFn path t s).2 = .SkipDir))
  | .regular name (.ok data) => fun path s _ => by
    obtain ⟨ds, h1, h2⟩ := walkFn_regular s path name data
    exact ⟨ds, by simp [walk, h1, expectedFiles], by simp [h2, prunedDirs],
      Or.inl (by simp [walk, h1])⟩
  | .regular name (.error e) => fun path s h => by simp [readable] at h
  | .broken name e => fun path s h => by simp [readable] at h
  | .irregular name => fun path s h => by
    have hn : name ≠ lit ".git" := by simpa [readable] using h
    exact ⟨[], by simp [walk, walkFn, hn, expectedFiles], by simp [prunedDirs],
      Or.inl (by simp [walk, walkFn, hn])⟩
  | .dir name (some e) children => fun path s h => by simp [readable] at h
  | .dir name none children => fun path s h => by
    by_cases hn : name = lit ".git"
    · refine ⟨[lit "skipping .git"], ?_, ?_, Or.inr ⟨rfl, ?_⟩⟩
      · simp [walk, walkFn, hn, expectedFiles]
      · simp [prunedDirs, hn]
      · simp [walk, walkFn, hn]
    · have hc : readableList children = true := by simpa [readable, hn] using h
      obtain ⟨ds, h1, h2, h3⟩ := walkNames_readable join children path s hc
      refine ⟨ds, ?_, ?_, Or.inl ?_⟩
      · simpa [walk, walkFn, hn, expectedFiles] using h1
      · simpa [prunedDirs, hn] using h2
      · simpa [walk, walkFn, hn] using h3
theorem walkNames_readable (join : GoString → GoString → GoString) :
    (cs : List FsNode) → ∀ (path : GoString) (s : LoadState), readableList cs = true →
      ∃ ds : List GoString,
        (walkNames join walkFn path cs s).1
            = ⟨s.ret ++ expectedFilesList join path cs, s.out ++ ds⟩
          ∧ ds.count (lit "skipping .git") = prunedDirsList cs
          ∧ (walkNames join walkFn path cs s).2 = .nil
  | [] => fun path s _ => ⟨[], by simp [walkNames, expectedFilesList, prunedDirsList]⟩
  | c :: cs => fun path s h => by
    have hc : readable c = true ∧ readableList cs = true := by
      simpa [readableList] using h
    have hl : c.lstatErr = none := by
      cases c with
      | broken n e => simp [readable] at hc
      | regular n r => rfl
      | irregular n => rfl
      | dir n l ch => rfl
    obtain ⟨ds0, h01, h02, h03⟩ := walk_readable join c (join path c.name) s hc.1
    have hgo : ¬ ((walk join walkFn (join path c.name) c s).2 ≠ .nil
        ∧ (c.isDir = false ∨ (walk join walkFn (join path c.name) c s).2 ≠ .SkipDir)) := by
      rcases h03 with h | ⟨hd, h⟩
      · simp [h]
      · simp [h, hd]
    obtain ⟨ds, h1, h2, h3⟩ := walkNames_readable join cs path
      (walk join walkFn (join path c.name) c s).1 hc.2
    refine ⟨ds0 ++ ds, ?_, ?_, ?_⟩
    · simp only [walkNames, hl]
      rw [if_neg hgo, h1, h01]
      simp [expectedFilesList]
    · rw [List.count_append, h02, h2]
      simp [prunedDirsList]
    · simp only [walkNames, hl]
      rw [if_neg hgo, h3]
end

/-- On a tree on which the walk meets no error and no entry named `.git` that is
neither a regular file nor a directory, `preloadAll` returns exactly the
regular files with a supported extension and valid text that do not lie
beneath a directory named `.git`, and writes one notice per pruned directory. -/
theorem preloadAll_readable (join : GoString → GoString → GoString) (root : GoString)
    (t : FsNode) (h : readable t = true) :
    (preloadAll join root t).1 = .ok (expectedFiles join root t)
      ∧ (preloadAll join root t).2.count (lit "skipping .git") = prunedDirs t := by
  obtain ⟨ds, h1, h2, h3⟩ := walk_readable join t root ⟨[], []⟩ h
  unfold preloadAll Walk
  rcases h3 with h3 | ⟨_, h3⟩
  · cases hw : walk join walkFn root t ⟨[], []⟩ with
    | mk s sig =>
      rw [hw] at h1 h3
      simp at h1 h3
      subst h3
      simp [h1, h2]
  · cases hw : walk join walkFn root t ⟨[], []⟩ with
    | mk s sig =>
      rw [hw] at h1 h3
      simp at h1 h3
      subst h3
      simp [h1, h2]

theorem preloadAll_readable_example :
    readable sampleTree = true
      ∧ (preloadAll joinPlain (lit "proj") sampleTree).1
          = .ok (expectedFiles joinPlain (lit "proj") sampleTree)
      ∧ (preloadAll joinPlain (lit "proj") sampleTree).2.count (lit "skipping .git")
          = prunedDirs sampleTree :=
  ⟨by decide, preloadAll_readable joinPlain (lit "proj") sampleTree (by decide)⟩

/-- An example of the first loop: the parser panics on `c.ts`, and `a.ts`, which
comes after it, is still parsed and counted. -/
theorem first_pass_after_fault_example :
    (pass sampleParser World.empty [] [filePanic, fileOk]).2
        = [(lit " (ts)", 1), (lit "ok (ts)", 1)]
      ∧ (pass sampleParser World.empty [] [filePanic, fileOk]).1
        = ⟨[lit "c.ts: recovered: runtime error: index out of range [3] with length 3"],
            [(lit "boom", .Typescript), (lit "let x = 1", .Typescript)]⟩ := by
  decide

end Llts
